import Mathlib

set_option autoImplicit false

/-!
Shallow embedding of src/solution.py, a diagonal Sudoku solver.

Cells carry two-character names A1..I9 in the source, listed row-major.
They are modelled here as indices 0..80, cell (row r, column c) at index
9*r + c.  Lexicographic order on the two-character names coincides with
the order on indices (all names have the same width and the row letter is
the primary key), which matters for the tuple minimum taken on source
line 185.  A candidate string (a Python str of digit characters) is a
List Char.  A Grid State (Python dict mapping the 81 names to strings,
with insertion order A1..I9) is a function from Nat to List Char; indices
outside 0..80 correspond to keys absent from the dict and are never
consulted or written by the algorithm, and every iteration over the dict
runs over the key-insertion order A1..I9, i.e. over the list boxes below.

The global assignments log (source lines 6, 27-40) is an append-only
visualization trace that the solver never reads; it is not modelled, and
assign_value is modelled as the pure dictionary write it performs.
-/

abbrev Vals := List Char

abbrev Grid := Nat → Vals

/-- Source line 4: cols = '123456789', the nine digit characters. -/
def cols : Vals := ['1', '2', '3', '4', '5', '6', '7', '8', '9']

/-- Source lines 8-10: cross(A, B) builds the list of name concatenations
s+t for s in A, t in B; with names replaced by row/column indices the
concatenation of row r and column c is index 9*r + c. -/
def cross (A B : List Nat) : List Nat :=
  A.flatMap (fun r => B.map (fun c => 9 * r + c))

/-- Source line 12: boxes = cross(rows, cols), the 81 cells in row-major
name order, which is index order 0..80. -/
def boxes : List Nat := cross (List.range 9) (List.range 9)

/-- Source line 14: one unit per row. -/
def row_units : List (List Nat) :=
  (List.range 9).map (fun r => cross [r] (List.range 9))

/-- Source line 15: one unit per column. -/
def column_units : List (List Nat) :=
  (List.range 9).map (fun c => cross (List.range 9) [c])

/-- Source line 16: the nine 3x3 boxes, outer loop over row bands, inner
loop over column bands. -/
def square_units : List (List Nat) :=
  [[0, 1, 2], [3, 4, 5], [6, 7, 8]].flatMap
    (fun rs => [[0, 1, 2], [3, 4, 5], [6, 7, 8]].map (fun cs => cross rs cs))

/-- Source line 20: the two main diagonals; rows[i]+cols[i] is index
9*i + i and rows[-i-1]+cols[i] is index 9*(8-i) + i. -/
def diagonal_units : List (List Nat) :=
  [(List.range 9).map (fun i => 9 * i + i),
   (List.range 9).map (fun i => 9 * (8 - i) + i)]

/-- Source line 22: the 29 constraint units, rows then columns then
squares then diagonals. -/
def unitlist : List (List Nat) :=
  row_units ++ column_units ++ square_units ++ diagonal_units

/-- Source line 23: units[s] is the sublist of unitlist of units
containing s, in unitlist order. -/
def units (s : Nat) : List (List Nat) :=
  unitlist.filter (fun u => u.contains s)

/-- Removes duplicates from a list keeping the first occurrence of each
element, the enumeration order of a Python dict or of a set freshly built
from a list in CPython. -/
def dedupFirst : List Nat → List Nat
  | [] => []
  | x :: xs => x :: (dedupFirst xs).filter (fun y => y != x)

/-- Source line 24: peers[s] = set(sum(units[s], [])) - set([s]).  The
source iterates over this set (line 118) in an order CPython does not
specify; the model fixes first-occurrence order.  The per-peer updates in
eliminate commute and are idempotent, so the resulting grid does not
depend on this choice. -/
def peers (s : Nat) : List Nat :=
  (dedupFirst (units s).flatten).filter (fun p => p != s)

/-- Python str.replace(old, '') (used at source lines 67 and 119): removes
every non-overlapping occurrence of the substring old; with old = '' the
string is returned unchanged.  In the solver old is always a string of
length at most 1, where this is exactly removal of every occurrence of
the character. -/
def pyReplaceAux (old : List Char) : Nat → List Char → List Char
  | _, [] => []
  | 0, s => s
  | fuel + 1, c :: s =>
    if old.isPrefixOf (c :: s) && !old.isEmpty then
      pyReplaceAux old fuel (s.drop (old.length - 1))
    else
      c :: pyReplaceAux old fuel s

def pyReplace (old : List Char) (s : List Char) : List Char :=
  pyReplaceAux old s.length s

/-- Source lines 27-40: assign_value writes values[box] = value; the early
return when the value is unchanged and the append to the visualization
log do not affect the grid. -/
def assign_value (values : Grid) (box : Nat) (value : Vals) : Grid :=
  Function.update values box value

/-- Source line 57: the keys of Counter(unit_values) enumerate the
distinct values of unit_values in first-occurrence order (CPython dicts
preserve insertion order), so naked_pair[0], the first key with count 2
and length 2, is also the first element of unit_values itself with count
2 and length 2. -/
def findNakedPair (unit_values : List Vals) : Option Vals :=
  unit_values.find? (fun k => unit_values.count k == 2 && k.length == 2)

/-- Source lines 52-67, the body of the loop over unitlist in
naked_twins: if the unit has a naked pair, remove each of the first
pair's two digits from every box of the unit whose current value has
length above 1 and differs from the pair. -/
def ntUnitStep (values : Grid) (unit : List Nat) : Grid :=
  let unit_values := unit.map values
  match findNakedPair unit_values with
  | none => values
  | some pair =>
    pair.foldl (fun v num =>
      unit.foldl (fun v2 box =>
        if decide (1 < (v2 box).length) && !(v2 box == pair) then
          Function.update v2 box (pyReplace [num] (v2 box))
        else v2) v) values

/-- Source lines 43-68: naked_twins processes the units of unitlist in
order, each with ntUnitStep. -/
def naked_twins (values : Grid) : Grid :=
  unitlist.foldl ntUnitStep values

/-- Source lines 71-82: grid_values zips boxes with the input characters,
replacing the placeholder with the full candidate string; positions
beyond the end of the input are keys missing from the dict, modelled as
the empty value (a valid 81-character input has none). -/
def grid_values (grid : List Char) : Grid := fun b =>
  match grid[b]? with
  | some ch => if ch = '.' then cols else [ch]
  | none => []

/-- Source lines 101-120: eliminate snapshots the solved boxes (those
whose value has length 1) in key order, then for each, reads its current
value as the digit and removes that digit from every peer.  The digit is
read at processing time (line 117), after earlier removals of the same
pass may already have acted on that box. -/
def eliminate (values : Grid) : Grid :=
  let solved_values := boxes.filter (fun box => (values box).length == 1)
  solved_values.foldl (fun v box =>
    let digit := v box
    (peers box).foldl (fun v2 peer =>
      assign_value v2 peer (pyReplace digit (v2 peer))) v) values

/-- Source lines 123-142: only_choice loops over unitlist, then over the
digits of cols; whenever exactly one box of the unit currently admits the
digit, that box is overwritten with the singleton digit
(potential_fit.pop() is the sole element of the singleton list). -/
def only_choice (values : Grid) : Grid :=
  unitlist.foldl (fun v unit =>
    cols.foldl (fun v2 number =>
      let potential_fit := unit.filter (fun box => (v2 box).contains number)
      match potential_fit with
      | [box] => Function.update v2 box [number]
      | _ => v2) v) values

/-- Source lines 170-171: the number of boxes whose value has the given
length, over the 81 keys of the dict. -/
def check_number_of_solved_values (values : Grid) (n : Nat) : Nat :=
  (boxes.filter (fun box => (values box).length == n)).length

/-- Source lines 145-167, the while loop of reduce_puzzle with an
explicit iteration budget.  Each pass applies eliminate then only_choice;
if any box ends the iteration empty the loop returns False (this check,
though written after the stop assignment, runs before the loop condition
is consulted again, so it wins over stopping); otherwise the loop stops
as soon as the solved count did not change.  The budget 0 case is dead
code for the budget 82 used by reduce_puzzle, which theorem
reduceAux_fuel_ge below shows is always enough: a non-final, non-failing
iteration strictly increases the solved count, which is bounded by 81. -/
def reduceAux : Nat → Grid → Option Grid
  | 0, _ => none
  | fuel + 1, values =>
    let solved_values_before := check_number_of_solved_values values 1
    let v1 := only_choice (eliminate values)
    let stop := solved_values_before == check_number_of_solved_values v1 1
    if check_number_of_solved_values v1 0 != 0 then none
    else if stop then some v1
    else reduceAux fuel v1

/-- Source lines 145-167: reduce_puzzle, with 82 as the always-sufficient
iteration budget. -/
def reduce_puzzle (values : Grid) : Option Grid :=
  reduceAux 82 values

/-- Python comparison of candidate strings, used only to order the tuples
of source line 185: lexicographic on characters. -/
def valsLt : Vals → Vals → Bool
  | _, [] => false
  | [], _ :: _ => true
  | a :: as, b :: bs => decide (a < b) || (a == b && valsLt as bs)

/-- Python comparison of (box, box_value) tuples from source line 185:
lexicographic, box name first.  Box names compare like their indices. -/
def pairLt (p q : Nat × Vals) : Bool :=
  decide (p.1 < q.1) || (p.1 == q.1 && valsLt p.2 q.2)

/-- Python min of a list of (box, box_value) tuples: the leftmost minimal
element; none on an empty list, where Python raises ValueError. -/
def listMin : List (Nat × Vals) → Option (Nat × Vals)
  | [] => none
  | x :: rest => some (rest.foldl (fun m y => if pairLt y m then y else m) x)

/-- Source line 185: the (box, box_value) pair chosen for branching, the
minimum tuple among the boxes whose value has length above 1, items
enumerated in key order. -/
def branchChoice (values : Grid) : Option (Nat × Vals) :=
  listMin ((boxes.filter (fun b => decide (1 < (values b).length))).map
    (fun b => (b, values b)))

/-- Source lines 188-199, the digit loop of search: for each candidate
digit in string order, copy the grid, assign the digit to the chosen box
in the copy (values.copy() then assign_value), recurse, and return the
first successful attempt; falling off the loop returns None. -/
def tryNumbers (rec : Grid → Option Grid) (values : Grid) (box : Nat) :
    List Char → Option Grid
  | [] => none
  | number :: rest =>
    match rec (assign_value values box [number]) with
    | some attempt => some attempt
    | none => tryNumbers rec values box rest

/-- Source lines 180-199, the part of search after a successful
reduction: succeed if every value has length 1, otherwise branch on the
minimum (box, box_value) tuple among the unsolved boxes, trying its
digits with the given recursive continuation.  The branchChoice none
case is Python raising ValueError on min of an empty sequence, which is
unreachable after a successful reduction that leaves some box
unsolved. -/
def searchBody (rec : Grid → Option Grid) (solved : Grid) : Option Grid :=
  if boxes.all (fun b => (solved b).length == 1) then some solved
  else
    match branchChoice solved with
    | none => none
    | some (box, box_value) => tryNumbers rec solved box box_value

/-- Source lines 176-178 of search: a failed reduction propagates
failure (if not solved: return False), a successful one continues with
searchBody. -/
def searchCont (rec : Grid → Option Grid) : Option Grid → Option Grid
  | none => none
  | some solved => searchBody rec solved

/-- Source lines 174-199, search with an explicit recursion budget:
reduce the grid, then continue with searchCont.  The budget 0 case is
dead code for the budget 82 used by search, which theorem
searchAux_eq_search below shows is always enough: every recursive call
strictly decreases the number of boxes with more than one candidate,
which is at most 81. -/
def searchAux : Nat → Grid → Option Grid
  | 0, _ => none
  | fuel + 1, values => searchCont (searchAux fuel) (reduce_puzzle values)

/-- Source lines 174-199: search, with 82 as the always-sufficient
recursion budget. -/
def search (values : Grid) : Option Grid :=
  searchAux 82 values

/-- Source lines 202-214: solve parses the input string and searches; the
final line maps a falsy result to False, the identity on this model. -/
def solve (grid : List Char) : Option Grid :=
  search (grid_values grid)

/-- Modelled from the spec (section 6, external interfaces): a
syntactically valid input is an 81-character string over the digits and
the blank placeholder. -/
def validInput (grid : List Char) : Prop :=
  grid.length = 81 ∧ ∀ ch ∈ grid, ch ∈ cols ∨ ch = '.'

/-- Modelled from the spec (section 8, first testable property): full
constraint re-verification from scratch, independent of the solver's
bookkeeping: every cell is a singleton and every unit (rows, columns,
squares and both diagonals) contains each digit exactly once. -/
def validSolution (g : Grid) : Prop :=
  (∀ b < 81, (g b).length = 1) ∧
  ∀ u ∈ unitlist, ∀ d ∈ cols, (u.filter (fun b => (g b).contains d)).length = 1

/-- Modelled from the spec (sections 1 and 4.6): sol is a total placement
of digits that satisfies every unit constraint and is compatible with the
candidates of grid g, the notion of solution quantified over in the solve
contract. -/
def IsSolution (sol : Nat → Char) (g : Grid) : Prop :=
  (∀ b < 81, sol b ∈ cols) ∧
  (∀ u ∈ unitlist, ∀ d ∈ cols, (u.filter (fun b => sol b == d)).length = 1) ∧
  ∀ b < 81, sol b ∈ g b

/-- Pointwise shrinking order on grids: every cell of g2 is a subsequence
of the same cell of g1.  Each pass of the solver shrinks the grid in this
order. -/
def GridLE (g2 g1 : Grid) : Prop := ∀ b, (g2 b).Sublist (g1 b)

/-- Representation invariant of candidate strings: every cell among the
81 is a subsequence of the digit string cols, hence sorted and without
duplicates. -/
def DigitsGrid (g : Grid) : Prop := ∀ b < 81, (g b).Sublist cols

/-- The number of unsolved boxes, those with more than one candidate. -/
def countMulti (g : Grid) : Nat :=
  (boxes.filter (fun b => decide (1 < (g b).length))).length

/-- No two peer cells hold the same resolved singleton digit. -/
def NoDupPeers (g : Grid) : Prop :=
  ∀ b1 b2 d, b2 ∈ peers b1 → g b1 = [d] → g b2 = [d] → False

/-- The grid-independent half of IsSolution: a digit placement that
satisfies every unit constraint. -/
def SolOK (sol : Nat → Char) : Prop :=
  (∀ b < 81, sol b ∈ cols) ∧
  ∀ u ∈ unitlist, ∀ d ∈ cols, (u.filter (fun b => sol b == d)).length = 1

/-- The grid-dependent half of IsSolution: the placement picks one of
the remaining candidates of every cell. -/
def SolCompat (sol : Nat → Char) (g : Grid) : Prop :=
  ∀ b < 81, sol b ∈ g b

/-- Concrete stalled grid used against claim C3: cell A1 holds three
candidates, cell A2 two, every other cell all nine. -/
def cg3 : Grid := fun b =>
  if b == 0 then ['1', '2', '3'] else if b == 1 then ['1', '2'] else cols

/-- Concrete grid used against claim C4: row A carries two distinct naked
pairs 12 (cells A1, A2) and 34 (cells A3, A4), cell A5 is fully open, and
every other cell is the singleton 5. -/
def cg4 : Grid := fun b =>
  if b == 0 || b == 1 then ['1', '2']
  else if b == 2 || b == 3 then ['3', '4']
  else if b == 4 then cols
  else ['5']

/-- Concrete stalled grid used against claim C5: a naked pair 12 in row A
that eliminate and only_choice cannot exploit but naked_twins can. -/
def cg5 : Grid := fun b =>
  if b == 0 || b == 1 then ['1', '2'] else cols


/-- Concrete grid with an empty cell, used for the C10 witness. -/
def cg10 : Grid := fun b => if b == 0 then [] else cols

/-- Concrete input placing the digit 5 in the two peer cells A1 and A2,
used for the C2 witness. -/
def dup_input : List Char := "55...............................................................................".data

/-- The diagonal sudoku input string from source line 218, used as a
syntactically valid input for the C1 witness. -/
def diag_sudoku_grid : List Char :=
  "2.............62....1....7...6..8...3...9...7...6..4...4....8....52.............3".data

/-- The body of the loop over solved boxes in eliminate (source lines
116-119), named for the proofs; definitionally equal to the lambda in
eliminate. -/
def elimStep (v : Grid) (box : Nat) : Grid :=
  (peers box).foldl (fun v2 peer =>
    assign_value v2 peer (pyReplace (v box) (v2 peer))) v

/-- The body of the digit loop in only_choice (source lines 134-141),
named for the proofs; definitionally equal to the lambda in
only_choice. -/
def ocDigitStep (unit : List Nat) (v2 : Grid) (number : Char) : Grid :=
  match unit.filter (fun box => (v2 box).contains number) with
  | [box] => Function.update v2 box [number]
  | _ => v2

/-- The body of the unit loop in only_choice (source lines 133-141),
named for the proofs. -/
def ocUnitStep (v : Grid) (unit : List Nat) : Grid :=
  cols.foldl (ocDigitStep unit) v

/-- The body of the digit loop in naked_twins (source lines 61-67),
named for the proofs; definitionally equal to the lambda in
ntUnitStep. -/
def ntNumStep (unit : List Nat) (pair : Vals) (v : Grid) (num : Char) : Grid :=
  unit.foldl (fun v2 box =>
    if decide (1 < (v2 box).length) && !(v2 box == pair) then
      Function.update v2 box (pyReplace [num] (v2 box))
    else v2) v

/-! Basic facts about the topology. -/

theorem boxes_eq : boxes = List.range 81 := by decide

theorem mem_boxes {b : Nat} : b ∈ boxes ↔ b < 81 := by
  rw [boxes_eq, List.mem_range]

theorem boxes_nodup : boxes.Nodup := by
  rw [boxes_eq]; exact List.nodup_range 81

theorem cols_nodup : cols.Nodup := by decide

theorem cols_pairwise_lt : cols.Pairwise (fun a b => a < b) := by decide

theorem unit_mem_lt : ∀ u ∈ unitlist, ∀ b ∈ u, b < 81 := by decide

theorem unit_nodup : ∀ u ∈ unitlist, u.Nodup := by decide

theorem unit_length : ∀ u ∈ unitlist, u.length = 9 := by decide

theorem dedupFirst_mem {x : Nat} : ∀ {l : List Nat}, x ∈ dedupFirst l ↔ x ∈ l := by
  intro l
  induction l with
  | nil => simp [dedupFirst]
  | cons y ys ih =>
    simp only [dedupFirst, List.mem_cons, List.mem_filter, ih]
    constructor
    · rintro (rfl | ⟨hx, _⟩)
      · exact Or.inl rfl
      · exact Or.inr hx
    · rintro (rfl | hx)
      · exact Or.inl rfl
      · by_cases hxy : x = y
        · exact Or.inl hxy
        · exact Or.inr ⟨hx, by simpa using hxy⟩

theorem mem_peers {p s : Nat} :
    p ∈ peers s ↔ p ≠ s ∧ ∃ u ∈ unitlist, s ∈ u ∧ p ∈ u := by
  simp only [peers, units, List.mem_filter, dedupFirst_mem, List.mem_flatten]
  constructor
  · rintro ⟨⟨u, hu, hpu⟩, hps⟩
    refine ⟨by simpa using hps, u, hu.1, ?_, hpu⟩
    have h2 := hu.2
    rwa [List.elem_iff] at h2
  · rintro ⟨hps, u, hu, hsu, hpu⟩
    refine ⟨⟨u, ⟨hu, ?_⟩, hpu⟩, by simpa using hps⟩
    rwa [List.elem_iff]

theorem peers_lt {p s : Nat} (h : p ∈ peers s) : p < 81 ∧ s < 81 := by
  rcases mem_peers.1 h with ⟨-, u, hu, hsu, hpu⟩
  exact ⟨unit_mem_lt u hu p hpu, unit_mem_lt u hu s hsu⟩

theorem peers_symm {p s : Nat} (h : p ∈ peers s) : s ∈ peers p := by
  rcases mem_peers.1 h with ⟨hne, u, hu, hsu, hpu⟩
  exact mem_peers.2 ⟨fun e => hne e.symm, u, hu, hpu, hsu⟩

theorem self_not_mem_peers {s : Nat} : s ∉ peers s := by
  intro h
  exact (mem_peers.1 h).1 rfl

theorem mem_peers_of_unit {u : List Nat} {b1 b2 : Nat} (hu : u ∈ unitlist)
    (h1 : b1 ∈ u) (h2 : b2 ∈ u) (hne : b2 ≠ b1) : b2 ∈ peers b1 :=
  mem_peers.2 ⟨hne, u, hu, h1, h2⟩

/-! Facts about pyReplace. -/

theorem pyReplaceAux_nil : ∀ (fuel : Nat) (s : List Char),
    pyReplaceAux [] fuel s = s := by
  intro fuel
  induction fuel with
  | zero => intro s; cases s <;> rfl
  | succ n ih =>
    intro s
    cases s with
    | nil => rfl
    | cons c cs =>
      show (if List.isPrefixOf [] (c :: cs) && !(List.isEmpty ([] : List Char))
            then pyReplaceAux [] n (cs.drop (([] : List Char).length - 1))
            else c :: pyReplaceAux [] n cs) = c :: cs
      simp [List.isPrefixOf, ih]

theorem pyReplace_nil (s : List Char) : pyReplace [] s = s :=
  pyReplaceAux_nil s.length s

theorem pyReplaceAux_single (c : Char) : ∀ (fuel : Nat) (s : List Char),
    s.length ≤ fuel → pyReplaceAux [c] fuel s = s.filter (fun x => x != c) := by
  intro fuel
  induction fuel with
  | zero =>
    intro s hs
    cases s with
    | nil => rfl
    | cons x xs => simp at hs
  | succ n ih =>
    intro s hs
    cases s with
    | nil => rfl
    | cons x xs =>
      have hlen : xs.length ≤ n := by
        simp only [List.length_cons] at hs
        omega
      show (if List.isPrefixOf [c] (x :: xs) && !(List.isEmpty [c])
            then pyReplaceAux [c] n (xs.drop (([c] : List Char).length - 1))
            else x :: pyReplaceAux [c] n xs) = (x :: xs).filter (fun y => y != c)
      have hc : (List.isPrefixOf [c] (x :: xs) && !(List.isEmpty [c])) = (c == x) := by
        simp [List.isPrefixOf]
      rw [hc]
      by_cases hxc : c = x
      · subst hxc
        rw [if_pos (by simp)]
        rw [List.filter_cons]
        have hcc : (c != c) = false := by simp
        rw [hcc]
        rw [show (([c] : List Char).length - 1) = 0 from rfl, List.drop_zero]
        exact ih xs hlen
      · rw [if_neg (by simp [hxc])]
        rw [List.filter_cons, ih xs hlen]
        have hx : (x != c) = true := by
          simp only [bne_iff_ne, Ne]
          exact fun e => hxc e.symm
        simp [hx]

theorem pyReplace_single (c : Char) (s : List Char) :
    pyReplace [c] s = s.filter (fun x => x != c) :=
  pyReplaceAux_single c s.length s (Nat.le_refl _)

theorem pyReplaceAux_sublist : ∀ (fuel : Nat) (old s : List Char),
    (pyReplaceAux old fuel s).Sublist s := by
  intro fuel
  induction fuel with
  | zero =>
    intro old s
    cases s with
    | nil => exact List.nil_sublist _
    | cons c cs => exact List.Sublist.refl _
  | succ n ih =>
    intro old s
    cases s with
    | nil => exact List.nil_sublist _
    | cons c cs =>
      show (if List.isPrefixOf old (c :: cs) && !(List.isEmpty old)
            then pyReplaceAux old n (cs.drop (old.length - 1))
            else c :: pyReplaceAux old n cs).Sublist (c :: cs)
      by_cases hpre : (List.isPrefixOf old (c :: cs) && !(List.isEmpty old)) = true
      · rw [if_pos hpre]
        exact (ih old _).trans ((List.drop_sublist _ _).trans
          (List.sublist_cons_self c cs))
      · rw [if_neg hpre]
        exact (ih old cs).cons₂ c

theorem pyReplace_sublist (old : List Char) (s : List Char) :
    (pyReplace old s).Sublist s :=
  pyReplaceAux_sublist s.length old s

/-! Sublist helpers. -/

theorem sublist_singleton_elim {s : List Char} {a : Char} (h : s.Sublist [a]) :
    s = [] ∨ s = [a] :=
  List.sublist_singleton.1 h

theorem singleton_sublist_singleton {a b : Char} (h : List.Sublist [a] [b]) : a = b := by
  rcases sublist_singleton_elim h with h' | h'
  · exact absurd h' (List.cons_ne_nil a [])
  · injection h' with h1 h2

theorem eq_singleton_of_len_le_one_of_mem {s : Vals} {a : Char}
    (hlen : s.length ≤ 1) (hmem : a ∈ s) : s = [a] := by
  match s, hlen with
  | [], _ => cases hmem
  | [x], _ =>
    rcases List.mem_singleton.1 hmem with rfl
    rfl

theorem sublist_of_singleton_sub {s : Vals} {a : Char} (hs : s.Sublist [a]) (h : a ∈ s) :
    s = [a] := by
  rcases sublist_singleton_elim hs with rfl | rfl
  · cases h
  · rfl

/-! Generic fold invariants. -/

theorem contains_true {l : Vals} {a : Char} : (l.contains a = true) ↔ a ∈ l := by simp

theorem foldl_pres {α : Type} (P : Grid → Prop) (f : Grid → α → Grid) :
    ∀ (l : List α) (v : Grid), P v → (∀ w a, a ∈ l → P w → P (f w a)) → P (l.foldl f v) := by
  intro l
  induction l with
  | nil => intro v hv _; exact hv
  | cons a as ih =>
    intro v hv hstep
    exact ih (f v a) (hstep v a (List.mem_cons_self a as) hv)
      (fun w b hb hw => hstep w b (List.mem_cons_of_mem a hb) hw)

theorem gridLE_refl (g : Grid) : GridLE g g := fun _ => List.Sublist.refl _

theorem gridLE_trans {g3 g2 g1 : Grid} (h32 : GridLE g3 g2) (h21 : GridLE g2 g1) :
    GridLE g3 g1 :=
  fun b => (h32 b).trans (h21 b)

theorem gridLE_update {v : Grid} {b : Nat} {val : Vals} (h : val.Sublist (v b)) :
    GridLE (Function.update v b val) v := by
  intro b2
  by_cases hb : b2 = b
  · subst hb; rw [Function.update_same]; exact h
  · rw [Function.update_noteq hb]

theorem gridLE_foldl {α : Type} {f : Grid → α → Grid} {l : List α} {v : Grid}
    (h : ∀ w a, a ∈ l → GridLE (f w a) w) : GridLE (l.foldl f v) v :=
  foldl_pres (fun w => GridLE w v) f l v (gridLE_refl v)
    (fun w a ha hw => gridLE_trans (h w a ha) hw)

/-! Pointwise monotonicity of the three passes. -/

theorem eliminate_gridLE (g : Grid) : GridLE (eliminate g) g := by
  unfold eliminate
  apply gridLE_foldl
  intro w box _
  dsimp only
  apply gridLE_foldl
  intro w2 p _
  exact gridLE_update (pyReplace_sublist _ _)

theorem only_choice_gridLE (g : Grid) : GridLE (only_choice g) g := by
  unfold only_choice
  apply gridLE_foldl
  intro w unit _
  apply gridLE_foldl
  intro w2 number _
  dsimp only
  split
  next box heq =>
    have hbox : box ∈ unit.filter (fun b => (w2 b).contains number) := by
      rw [heq]; exact List.mem_singleton_self box
    have hmem : number ∈ w2 box := contains_true.1 (List.mem_filter.1 hbox).2
    exact gridLE_update (List.singleton_sublist.2 hmem)
  next => exact gridLE_refl _

theorem ntUnitStep_gridLE (g : Grid) (unit : List Nat) : GridLE (ntUnitStep g unit) g := by
  unfold ntUnitStep
  dsimp only
  split
  next => exact gridLE_refl _
  next pair _ =>
    apply gridLE_foldl
    intro w num _
    apply gridLE_foldl
    intro w2 box _
    dsimp only
    split
    next => exact gridLE_update (pyReplace_sublist _ _)
    next => exact gridLE_refl _

theorem naked_twins_gridLE (g : Grid) : GridLE (naked_twins g) g := by
  unfold naked_twins
  exact gridLE_foldl (fun w u _ => ntUnitStep_gridLE w u)

/-- only_choice acts as the identity on every cell already holding at
most one candidate: a digit is assigned only to a cell still containing
it. -/
theorem only_choice_short {g : Grid} {b : Nat} (hb : (g b).length ≤ 1) :
    only_choice g b = g b := by
  unfold only_choice
  refine foldl_pres (fun v => v b = g b) _ unitlist g rfl ?_
  intro w unit _ hw
  refine foldl_pres (fun v2 => v2 b = g b) _ cols w hw ?_
  intro w2 number _ hw2
  dsimp only
  cases hfit : unit.filter (fun box => (w2 box).contains number) with
  | nil => exact hw2
  | cons box rest =>
    cases rest with
    | nil =>
      show Function.update w2 box [number] b = g b
      by_cases hbox : box = b
      · subst hbox
        rw [Function.update_same]
        have hboxf : box ∈ unit.filter (fun x => (w2 x).contains number) := by
          rw [hfit]; exact List.mem_singleton_self box
        have hmem : number ∈ w2 box := contains_true.1 (List.mem_filter.1 hboxf).2
        rw [hw2] at hmem
        exact (eq_singleton_of_len_le_one_of_mem hb hmem).symm
      · rw [Function.update_noteq (fun e => hbox e.symm)]
        exact hw2
    | cons y ys => exact hw2

/-- A generic description of a fold that conditionally rewrites each
visited cell from its current value, over a duplicate-free list of
cells. -/
theorem foldl_cond_update_nodup (f : Vals → Vals) (P : Vals → Bool) :
    ∀ (l : List Nat), l.Nodup → ∀ (v : Grid) (b : Nat),
    (l.foldl (fun v2 box =>
      if P (v2 box) then Function.update v2 box (f (v2 box)) else v2) v) b
      = if b ∈ l ∧ P (v b) = true then f (v b) else v b := by
  intro l
  induction l with
  | nil =>
    intro _ v b
    simp
  | cons x xs ih =>
    intro hnd v b
    have hx_not : x ∉ xs := (List.nodup_cons.1 hnd).1
    have hnd2 : xs.Nodup := (List.nodup_cons.1 hnd).2
    rw [List.foldl_cons]
    rw [ih hnd2]
    by_cases hbx : b = x
    · subst hbx
      rw [if_neg (fun h => hx_not h.1)]
      by_cases hp : P (v b) = true
      · rw [if_pos hp, Function.update_same,
          if_pos ⟨List.mem_cons_self _ _, hp⟩]
      · rw [if_neg hp, if_neg (fun h => hp h.2)]
    · have hv1b : (if P (v x) then Function.update v x (f (v x)) else v) b = v b := by
        by_cases hp : P (v x) = true
        · rw [if_pos hp, Function.update_noteq hbx]
        · rw [if_neg hp]
      rw [hv1b]
      by_cases hbin : b ∈ xs
      · have : b ∈ x :: xs := List.mem_cons_of_mem x hbin
        by_cases hp : P (v b) = true
        · rw [if_pos ⟨hbin, hp⟩, if_pos ⟨this, hp⟩]
        · rw [if_neg (fun h => hp h.2), if_neg (fun h => hp h.2)]
      · have hbnot : b ∉ x :: xs := by
          intro h
          rcases List.mem_cons.1 h with h1 | h2
          · exact hbx h1
          · exact hbin h2
        rw [if_neg (fun h => hbin h.1), if_neg (fun h => hbnot h.1)]

/-! Counting lemmas and the structure of the reduction loop. -/

theorem boxes_length : boxes.length = 81 := by decide

theorem check_le_81 (g : Grid) (n : Nat) : check_number_of_solved_values g n ≤ 81 := by
  unfold check_number_of_solved_values
  calc (boxes.filter (fun box => (g box).length == n)).length
      ≤ boxes.length := List.length_filter_le _ _
    _ = 81 := boxes_length

theorem check_zero_iff {g : Grid} :
    check_number_of_solved_values g 0 = 0 ↔ ∀ b < 81, g b ≠ [] := by
  unfold check_number_of_solved_values
  rw [List.length_eq_zero, List.filter_eq_nil_iff]
  constructor
  · intro h b hb hbe
    exact h b (mem_boxes.2 hb) (by simp [hbe])
  · intro h b hbmem hlen
    have hl : (g b).length = 0 := by simpa using hlen
    exact h b (mem_boxes.1 hbmem) (List.length_eq_zero.1 hl)

theorem pass_keeps_short {g : Grid} {b : Nat} (hb : (g b).length ≤ 1) :
    ((only_choice (eliminate g)) b).length ≤ 1 := by
  have h1 : ((eliminate g) b).length ≤ 1 :=
    le_trans (eliminate_gridLE g b).length_le hb
  rw [only_choice_short h1]
  exact h1

theorem pass_keeps_solved {g : Grid}
    (hne : check_number_of_solved_values (only_choice (eliminate g)) 0 = 0)
    {b : Nat} (hb : b < 81) (h1 : (g b).length = 1) :
    ((only_choice (eliminate g)) b).length = 1 := by
  have hle : ((only_choice (eliminate g)) b).length ≤ 1 := pass_keeps_short (le_of_eq h1)
  have hnz : (only_choice (eliminate g)) b ≠ [] := (check_zero_iff.1 hne) b hb
  have hlz : ((only_choice (eliminate g)) b).length ≠ 0 :=
    fun h => hnz (List.length_eq_zero.1 h)
  omega

theorem filter_length_mono {l : List Nat} {p q : Nat → Bool}
    (h : ∀ a ∈ l, p a = true → q a = true) :
    (l.filter p).length ≤ (l.filter q).length := by
  rw [← List.countP_eq_length_filter, ← List.countP_eq_length_filter]
  exact List.countP_mono_left h

theorem filter_length_eq_rev {p q : Nat → Bool} :
    ∀ (l : List Nat), (∀ a ∈ l, p a = true → q a = true) →
    (l.filter q).length = (l.filter p).length →
    ∀ a ∈ l, q a = true → p a = true := by
  intro l
  induction l with
  | nil => intro _ _ a ha; cases ha
  | cons x xs ih =>
    intro himp hlen a ha hqa
    have himp2 : ∀ a ∈ xs, p a = true → q a = true :=
      fun a ha2 => himp a (List.mem_cons_of_mem _ ha2)
    have hmono : (xs.filter p).length ≤ (xs.filter q).length := filter_length_mono himp2
    rw [List.filter_cons, List.filter_cons] at hlen
    by_cases hpx : p x = true
    · have hqx : q x = true := himp x (List.mem_cons_self _ _) hpx
      rw [if_pos hqx, if_pos hpx] at hlen
      simp only [List.length_cons] at hlen
      have hlen2 : (xs.filter q).length = (xs.filter p).length := by omega
      rcases List.mem_cons.1 ha with rfl | hxs
      · exact hpx
      · exact ih himp2 hlen2 a hxs hqa
    · rw [if_neg hpx] at hlen
      by_cases hqx : q x = true
      · rw [if_pos hqx] at hlen
        simp only [List.length_cons] at hlen
        omega
      · rw [if_neg hqx] at hlen
        rcases List.mem_cons.1 ha with rfl | hxs
        · exact absurd hqa hqx
        · exact ih himp2 hlen a hxs hqa

theorem solved_count_mono {g : Grid}
    (hne : check_number_of_solved_values (only_choice (eliminate g)) 0 = 0) :
    check_number_of_solved_values g 1 ≤
      check_number_of_solved_values (only_choice (eliminate g)) 1 := by
  unfold check_number_of_solved_values
  refine filter_length_mono ?_
  intro b hb hp
  have h1 : (g b).length = 1 := by simpa using hp
  have := pass_keeps_solved hne (mem_boxes.1 hb) h1
  simpa using this

theorem reduceAux_step (fuel : Nat) (values : Grid) :
    reduceAux (fuel + 1) values =
      if check_number_of_solved_values (only_choice (eliminate values)) 0 ≠ 0 then none
      else if check_number_of_solved_values values 1 =
          check_number_of_solved_values (only_choice (eliminate values)) 1 then
        some (only_choice (eliminate values))
      else reduceAux fuel (only_choice (eliminate values)) := by
  simp only [reduceAux, bne_iff_ne, beq_iff_eq, ne_eq]

theorem reduceAux_some_shape : ∀ (fuel : Nat) (g g2 : Grid),
    reduceAux fuel g = some g2 →
    (∃ g0, GridLE g0 g ∧ g2 = only_choice (eliminate g0) ∧
      check_number_of_solved_values g0 1 = check_number_of_solved_values g2 1) ∧
    check_number_of_solved_values g2 0 = 0 ∧ GridLE g2 g := by
  intro fuel
  induction fuel with
  | zero => intro g g2 h; simp [reduceAux] at h
  | succ n ih =>
    intro g g2 h
    rw [reduceAux_step] at h
    by_cases h0 : check_number_of_solved_values (only_choice (eliminate g)) 0 ≠ 0
    · rw [if_pos h0] at h; cases h
    · rw [if_neg h0] at h
      have hstepLE : GridLE (only_choice (eliminate g)) g :=
        gridLE_trans (only_choice_gridLE _) (eliminate_gridLE _)
      by_cases hstop : check_number_of_solved_values g 1 =
          check_number_of_solved_values (only_choice (eliminate g)) 1
      · rw [if_pos hstop] at h
        injection h with h2
        subst h2
        exact ⟨⟨g, gridLE_refl g, rfl, hstop⟩, not_not.1 h0, hstepLE⟩
      · rw [if_neg hstop] at h
        rcases ih _ _ h with ⟨⟨g0, hg0le, hshape, hcount⟩, hzero, hle⟩
        exact ⟨⟨g0, gridLE_trans hg0le hstepLE, hshape, hcount⟩, hzero,
          gridLE_trans hle hstepLE⟩

theorem reduceAux_fuel_succ : ∀ (fuel : Nat) (g : Grid),
    82 ≤ fuel + check_number_of_solved_values g 1 →
    reduceAux (fuel + 1) g = reduceAux fuel g := by
  intro fuel
  induction fuel with
  | zero =>
    intro g hg
    have := check_le_81 g 1
    omega
  | succ n ih =>
    intro g hg
    rw [reduceAux_step n, reduceAux_step (n + 1)]
    by_cases h0 : check_number_of_solved_values (only_choice (eliminate g)) 0 ≠ 0
    · rw [if_pos h0, if_pos h0]
    · rw [if_neg h0, if_neg h0]
      by_cases hstop : check_number_of_solved_values g 1 =
          check_number_of_solved_values (only_choice (eliminate g)) 1
      · rw [if_pos hstop, if_pos hstop]
      · rw [if_neg hstop, if_neg hstop]
        apply ih
        have hmono := solved_count_mono (not_not.1 h0)
        have hlt : check_number_of_solved_values g 1 <
            check_number_of_solved_values (only_choice (eliminate g)) 1 :=
          lt_of_le_of_ne hmono hstop
        omega

theorem reduceAux_eq_of_ge : ∀ (fuel : Nat), 82 ≤ fuel → ∀ g : Grid,
    reduceAux fuel g = reduce_puzzle g := by
  intro fuel
  induction fuel with
  | zero => intro h; omega
  | succ n ih =>
    intro h g
    rcases Nat.lt_or_ge n 82 with hn | hn
    · have he : n + 1 = 82 := by omega
      rw [he]; rfl
    · rw [reduceAux_fuel_succ n g (le_trans hn (Nat.le_add_right n _))]
      exact ih hn g

theorem reduce_puzzle_some_shape {g g2 : Grid} (h : reduce_puzzle g = some g2) :
    (∃ g0, GridLE g0 g ∧ g2 = only_choice (eliminate g0) ∧
      check_number_of_solved_values g0 1 = check_number_of_solved_values g2 1) ∧
    check_number_of_solved_values g2 0 = 0 ∧ GridLE g2 g :=
  reduceAux_some_shape 82 g g2 h

theorem reduce_puzzle_no_empty {g g2 : Grid} (h : reduce_puzzle g = some g2) :
    ∀ b < 81, g2 b ≠ [] :=
  check_zero_iff.1 (reduce_puzzle_some_shape h).2.1

theorem reduce_puzzle_gridLE {g g2 : Grid} (h : reduce_puzzle g = some g2) :
    GridLE g2 g :=
  (reduce_puzzle_some_shape h).2.2

theorem reduce_puzzle_empty_none {g : Grid} {b : Nat} (hb : b < 81) (he : g b = []) :
    reduce_puzzle g = none := by
  unfold reduce_puzzle
  rw [show (82 : Nat) = 81 + 1 from rfl, reduceAux_step 81]
  have helim : (eliminate g) b = [] := by
    have hsub := eliminate_gridLE g b
    rw [he] at hsub
    exact List.sublist_nil.1 hsub
  have h1 : (only_choice (eliminate g)) b = [] := by
    rw [only_choice_short (by rw [helim]; exact Nat.zero_le 1), helim]
  have hnz : check_number_of_solved_values (only_choice (eliminate g)) 0 ≠ 0 := by
    intro hz
    exact (check_zero_iff.1 hz) b hb h1
  rw [if_pos hnz]

/-! Named unfoldings of the passes and the duplicate-peer analysis of
eliminate. -/

theorem eliminate_eq (g : Grid) :
    eliminate g = (boxes.filter (fun box => (g box).length == 1)).foldl elimStep g := rfl

theorem only_choice_eq (g : Grid) : only_choice g = unitlist.foldl ocUnitStep g := rfl

theorem ntUnitStep_eq (values : Grid) (unit : List Nat) :
    ntUnitStep values unit =
      match findNakedPair (unit.map values) with
      | none => values
      | some pair => pair.foldl (ntNumStep unit pair) values := rfl

theorem elimStep_gridLE (v : Grid) (box : Nat) : GridLE (elimStep v box) v := by
  unfold elimStep
  exact gridLE_foldl (fun w p _ => gridLE_update (pyReplace_sublist _ _))

theorem elim_inner_keeps (dg : Vals) (l : List Nat) (v : Grid) (b : Nat) (d : Char)
    (hb : d ∉ v b) :
    d ∉ (l.foldl (fun v2 peer => assign_value v2 peer (pyReplace dg (v2 peer))) v) b := by
  refine foldl_pres (fun w => d ∉ w b) _ l v hb ?_
  intro w p _ hw
  by_cases hpb : b = p
  · subst hpb
    show d ∉ Function.update w b (pyReplace dg (w b)) b
    rw [Function.update_same]
    exact fun hmem => hw ((pyReplace_sublist dg (w b)).subset hmem)
  · show d ∉ Function.update w p (pyReplace dg (w p)) b
    rw [Function.update_noteq hpb]
    exact hw

theorem elim_inner_removes (d : Char) :
    ∀ (l : List Nat) (v : Grid) (b : Nat), b ∈ l →
    d ∉ (l.foldl (fun v2 peer => assign_value v2 peer (pyReplace [d] (v2 peer))) v) b := by
  intro l
  induction l with
  | nil => intro v b hb; cases hb
  | cons p ps ih =>
    intro v b hb
    rw [List.foldl_cons]
    rcases List.mem_cons.1 hb with rfl | hps
    · apply elim_inner_keeps
      show d ∉ Function.update v b (pyReplace [d] (v b)) b
      rw [Function.update_same, pyReplace_single]
      intro hmem
      have hne := (List.mem_filter.1 hmem).2
      simp at hne
    · exact ih _ _ hps

theorem elimStep_removes {v : Grid} {b1 b2 : Nat} {d : Char} (hval : v b1 = [d])
    (hp : b2 ∈ peers b1) : d ∉ (elimStep v b1) b2 := by
  unfold elimStep
  rw [hval]
  exact elim_inner_removes d (peers b1) v b2 hp

theorem elimStep_keeps {v : Grid} {box b : Nat} {d : Char} (h : d ∉ v b) :
    d ∉ (elimStep v box) b :=
  elim_inner_keeps (v box) (peers box) v b d h

theorem eliminate_dup_empty {g : Grid} {b1 b2 : Nat} {d : Char}
    (hp : b2 ∈ peers b1) (h1 : g b1 = [d]) (h2 : g b2 = [d]) :
    (eliminate g) b1 = [] ∨ (eliminate g) b2 = [] := by
  have hb1lt : b1 < 81 := (peers_lt hp).2
  have hb1mem : b1 ∈ boxes.filter (fun box => (g box).length == 1) :=
    List.mem_filter.2 ⟨mem_boxes.2 hb1lt, by simp [h1]⟩
  rcases List.append_of_mem hb1mem with ⟨l1, l2, hsplit⟩
  rw [eliminate_eq, hsplit, List.foldl_append, List.foldl_cons]
  have hv1le : GridLE (l1.foldl elimStep g) g :=
    gridLE_foldl (fun w box _ => elimStep_gridLE w box)
  have hrestLE : ∀ w : Grid, GridLE (l2.foldl elimStep w) w :=
    fun w => gridLE_foldl (fun w2 box _ => elimStep_gridLE w2 box)
  have hsub1 : ((l1.foldl elimStep g) b1).Sublist [d] := by
    have hc := hv1le b1
    rwa [h1] at hc
  rcases sublist_singleton_elim hsub1 with hnil | hval
  · left
    have hchain : ((l2.foldl elimStep (elimStep (l1.foldl elimStep g) b1)) b1).Sublist
        ((l1.foldl elimStep g) b1) :=
      (hrestLE _ b1).trans (elimStep_gridLE _ b1 b1)
    rw [hnil] at hchain
    exact List.sublist_nil.1 hchain
  · right
    have hafter : d ∉ (elimStep (l1.foldl elimStep g) b1) b2 := elimStep_removes hval hp
    have hfinal : d ∉ (l2.foldl elimStep (elimStep (l1.foldl elimStep g) b1)) b2 := by
      refine foldl_pres (fun w => d ∉ w b2) elimStep l2 _ hafter ?_
      intro w box _ hw
      exact elimStep_keeps hw
    have hsub2 : ((l2.foldl elimStep (elimStep (l1.foldl elimStep g) b1)) b2).Sublist [d] := by
      have hc : ((l2.foldl elimStep (elimStep (l1.foldl elimStep g) b1)) b2).Sublist (g b2) :=
        ((hrestLE _ b2).trans (elimStep_gridLE _ b1 b2)).trans (hv1le b2)
      rwa [h2] at hc
    rcases sublist_singleton_elim hsub2 with hn | hv
    · exact hn
    · exact absurd (by rw [hv]; exact List.mem_singleton_self d) hfinal

theorem stall_no_dup {g0 : Grid}
    (hz : check_number_of_solved_values (only_choice (eliminate g0)) 0 = 0)
    (hc : check_number_of_solved_values g0 1 =
          check_number_of_solved_values (only_choice (eliminate g0)) 1) :
    NoDupPeers (only_choice (eliminate g0)) := by
  intro b1 b2 d hp h1 h2
  have hb1lt : b1 < 81 := (peers_lt hp).2
  have hb2lt : b2 < 81 := (peers_lt hp).1
  have hrev : ∀ b < 81, ((only_choice (eliminate g0)) b).length = 1 →
      (g0 b).length = 1 := by
    intro b hb hlen
    have hres := filter_length_eq_rev (p := fun box => (g0 box).length == 1)
      (q := fun box => ((only_choice (eliminate g0)) box).length == 1) boxes
      (fun a ha hp2 => by
        have ha1 : (g0 a).length = 1 := by simpa using hp2
        have := pass_keeps_solved hz (mem_boxes.1 ha) ha1
        simpa using this)
      (by
        unfold check_number_of_solved_values at hc
        omega)
      b (mem_boxes.2 hb) (by simpa using hlen)
    simpa using hres
  have hexact : ∀ b < 81, ∀ e : Char, (only_choice (eliminate g0)) b = [e] →
      g0 b = [e] := by
    intro b hb e he
    have hlen1 : (g0 b).length = 1 := hrev b hb (by rw [he]; rfl)
    have hshort : ((eliminate g0) b).length ≤ 1 :=
      le_trans (eliminate_gridLE g0 b).length_le (le_of_eq hlen1)
    have heq : (only_choice (eliminate g0)) b = (eliminate g0) b :=
      only_choice_short hshort
    have hsub : List.Sublist [e] (g0 b) := by
      rw [← he, heq]
      exact eliminate_gridLE g0 b
    rcases List.length_eq_one.1 hlen1 with ⟨x, hx⟩
    rw [hx] at hsub ⊢
    rw [singleton_sublist_singleton hsub]
  have hg0b1 : g0 b1 = [d] := hexact b1 hb1lt d h1
  have hg0b2 : g0 b2 = [d] := hexact b2 hb2lt d h2
  rcases eliminate_dup_empty hp hg0b1 hg0b2 with he | he
  · have hmt : (only_choice (eliminate g0)) b1 = [] := by
      rw [only_choice_short (by rw [he]; exact Nat.zero_le 1), he]
    rw [h1] at hmt
    cases hmt
  · have hmt : (only_choice (eliminate g0)) b2 = [] := by
      rw [only_choice_short (by rw [he]; exact Nat.zero_le 1), he]
    rw [h2] at hmt
    cases hmt

theorem reduce_puzzle_no_dup {g g2 : Grid} (h : reduce_puzzle g = some g2) :
    NoDupPeers g2 := by
  rcases reduce_puzzle_some_shape h with ⟨⟨g0, -, hshape, hcount⟩, hzero, -⟩
  rw [hshape] at hzero hcount ⊢
  exact stall_no_dup hzero hcount

theorem reduce_puzzle_dup_none {g : Grid} {b1 b2 : Nat} {d : Char}
    (hp : b2 ∈ peers b1) (h1 : g b1 = [d]) (h2 : g b2 = [d]) :
    reduce_puzzle g = none := by
  have hkey : ∃ b, b < 81 ∧ (only_choice (eliminate g)) b = [] := by
    rcases eliminate_dup_empty hp h1 h2 with he | he
    · exact ⟨b1, (peers_lt hp).2,
        by rw [only_choice_short (by rw [he]; exact Nat.zero_le 1), he]⟩
    · exact ⟨b2, (peers_lt hp).1,
        by rw [only_choice_short (by rw [he]; exact Nat.zero_le 1), he]⟩
  rcases hkey with ⟨b, hb, hbe⟩
  have hnz : check_number_of_solved_values (only_choice (eliminate g)) 0 ≠ 0 := by
    intro hz
    exact (check_zero_iff.1 hz) b hb hbe
  unfold reduce_puzzle
  rw [show (82 : Nat) = 81 + 1 from rfl, reduceAux_step, if_pos hnz]

/-! The branching machinery of search. -/

theorem foldl_min_mem :
    ∀ (rest : List (Nat × Vals)) (acc : Nat × Vals) (L : List (Nat × Vals)),
    acc ∈ L → (∀ z ∈ rest, z ∈ L) →
    (rest.foldl (fun m y => if pairLt y m then y else m) acc) ∈ L := by
  intro rest
  induction rest with
  | nil => intro acc L ha _; exact ha
  | cons z zs ih =>
    intro acc L ha hz
    rw [List.foldl_cons]
    by_cases hp : pairLt z acc = true
    · rw [if_pos hp]
      exact ih z L (hz z (List.mem_cons_self _ _))
        (fun w hw => hz w (List.mem_cons_of_mem _ hw))
    · rw [if_neg hp]
      exact ih acc L ha (fun w hw => hz w (List.mem_cons_of_mem _ hw))

theorem listMin_mem {l : List (Nat × Vals)} {x : Nat × Vals}
    (h : listMin l = some x) : x ∈ l := by
  cases l with
  | nil => cases h
  | cons y rest =>
    rw [listMin] at h
    injection h with h2
    rw [← h2]
    exact foldl_min_mem rest y (y :: rest) (List.mem_cons_self _ _)
      (fun z hz => List.mem_cons_of_mem _ hz)

theorem branchChoice_some {g : Grid} {box : Nat} {bv : Vals}
    (h : branchChoice g = some (box, bv)) :
    box < 81 ∧ 1 < (g box).length ∧ bv = g box := by
  unfold branchChoice at h
  have hmem := listMin_mem h
  rw [List.mem_map] at hmem
  rcases hmem with ⟨b, hbf, hbe⟩
  rw [List.mem_filter] at hbf
  injection hbe with e1 e2
  subst e1
  subst e2
  exact ⟨mem_boxes.1 hbf.1, by simpa using hbf.2, rfl⟩

theorem branchChoice_isSome {g : Grid} {b : Nat} (hb : b < 81)
    (hlen : 1 < (g b).length) :
    ∃ box bv, branchChoice g = some (box, bv) := by
  unfold branchChoice
  have hbmem : b ∈ boxes.filter (fun x => decide (1 < (g x).length)) :=
    List.mem_filter.2 ⟨mem_boxes.2 hb, by simpa using hlen⟩
  cases hl : (boxes.filter (fun x => decide (1 < (g x).length))).map (fun x => (x, g x)) with
  | nil =>
    rw [List.map_eq_nil_iff] at hl
    rw [hl] at hbmem
    cases hbmem
  | cons y rest =>
    rcases hfold : rest.foldl (fun m z => if pairLt z m then z else m) y with ⟨bx, bv⟩
    exact ⟨bx, bv, by rw [listMin, hfold]⟩

theorem tryNumbers_eq_some {rec : Grid → Option Grid} {g : Grid} {box : Nat} :
    ∀ {ns : List Char} {r : Grid}, tryNumbers rec g box ns = some r →
    ∃ n ∈ ns, rec (assign_value g box [n]) = some r := by
  intro ns
  induction ns with
  | nil => intro r h; cases h
  | cons n rest ih =>
    intro r h
    rw [tryNumbers] at h
    cases hrec : rec (assign_value g box [n]) with
    | some att =>
      rw [hrec] at h
      injection h with h2
      exact ⟨n, List.mem_cons_self _ _, by rw [hrec, h2]⟩
    | none =>
      rw [hrec] at h
      rcases ih h with ⟨m, hm, he⟩
      exact ⟨m, List.mem_cons_of_mem _ hm, he⟩

theorem tryNumbers_some_of_mem {rec : Grid → Option Grid} {g : Grid} {box : Nat}
    {n : Char} {r : Grid} :
    ∀ {ns : List Char}, n ∈ ns → rec (assign_value g box [n]) = some r →
    ∃ r2, tryNumbers rec g box ns = some r2 := by
  intro ns
  induction ns with
  | nil => intro h; cases h
  | cons m rest ih =>
    intro hmem hrec
    rw [tryNumbers]
    cases hm : rec (assign_value g box [m]) with
    | some att => exact ⟨att, rfl⟩
    | none =>
      rcases List.mem_cons.1 hmem with rfl | hmem2
      · rw [hm] at hrec; cases hrec
      · rcases ih hmem2 hrec with ⟨r2, h2⟩
        exact ⟨r2, h2⟩

theorem tryNumbers_congr {rec rec2 : Grid → Option Grid} {g : Grid} {box : Nat} :
    ∀ {ns : List Char},
    (∀ n ∈ ns, rec (assign_value g box [n]) = rec2 (assign_value g box [n])) →
    tryNumbers rec g box ns = tryNumbers rec2 g box ns := by
  intro ns
  induction ns with
  | nil => intro _; rfl
  | cons n rest ih =>
    intro hagree
    rw [tryNumbers, tryNumbers, hagree n (List.mem_cons_self _ _)]
    cases h2 : rec2 (assign_value g box [n]) with
    | some att => rfl
    | none => exact ih (fun m hm => hagree m (List.mem_cons_of_mem _ hm))

theorem tryNumbers_append_skip {rec : Grid → Option Grid} {g : Grid} {box : Nat}
    (ns1 : List Char) (n : Char) (ns2 : List Char)
    (hfail : ∀ m ∈ ns1, rec (assign_value g box [m]) = none) :
    tryNumbers rec g box (ns1 ++ n :: ns2) =
      match rec (assign_value g box [n]) with
      | some r => some r
      | none => tryNumbers rec g box ns2 := by
  induction ns1 with
  | nil => rw [List.nil_append, tryNumbers]
  | cons m rest ih =>
    rw [List.cons_append, tryNumbers, hfail m (List.mem_cons_self _ _)]
    exact ih (fun m2 hm2 => hfail m2 (List.mem_cons_of_mem _ hm2))

theorem searchAux_succ (fuel : Nat) (values : Grid) :
    searchAux (fuel + 1) values = searchCont (searchAux fuel) (reduce_puzzle values) :=
  rfl

theorem searchAux_none (fuel : Nat) (values : Grid)
    (h : reduce_puzzle values = none) : searchAux (fuel + 1) values = none := by
  rw [searchAux_succ, h]
  rfl

theorem searchAux_some (fuel : Nat) (values solved : Grid)
    (h : reduce_puzzle values = some solved) :
    searchAux (fuel + 1) values = searchBody (searchAux fuel) solved := by
  rw [searchAux_succ, h]
  rfl

theorem searchBody_all (rec : Grid → Option Grid) (solved : Grid)
    (hall : (boxes.all fun b => (solved b).length == 1) = true) :
    searchBody rec solved = some solved := by
  unfold searchBody
  rw [if_pos hall]

theorem searchBody_nochoice (rec : Grid → Option Grid) (solved : Grid)
    (hall : ¬ (boxes.all fun b => (solved b).length == 1) = true)
    (hbc : branchChoice solved = none) : searchBody rec solved = none := by
  unfold searchBody
  rw [if_neg hall, hbc]

theorem searchBody_branch (rec : Grid → Option Grid) (solved : Grid)
    (box : Nat) (box_value : Vals)
    (hall : ¬ (boxes.all fun b => (solved b).length == 1) = true)
    (hbc : branchChoice solved = some (box, box_value)) :
    searchBody rec solved = tryNumbers rec solved box box_value := by
  unfold searchBody
  rw [if_neg hall, hbc]

theorem all_solved_iff {g : Grid} :
    (boxes.all (fun b => (g b).length == 1) = true) ↔ ∀ b < 81, (g b).length = 1 := by
  rw [List.all_eq_true]
  constructor
  · intro h b hb
    simpa using h b (mem_boxes.2 hb)
  · intro h b hb
    simpa using h b (mem_boxes.1 hb)

theorem countMulti_le_81 (g : Grid) : countMulti g ≤ 81 := by
  unfold countMulti
  calc (boxes.filter (fun b => decide (1 < (g b).length))).length
      ≤ boxes.length := List.length_filter_le _ _
    _ = 81 := boxes_length

theorem countMulti_mono {g2 g1 : Grid} (h : GridLE g2 g1) :
    countMulti g2 ≤ countMulti g1 := by
  unfold countMulti
  refine filter_length_mono ?_
  intro b _ hp
  have h2 : 1 < (g2 b).length := by simpa using hp
  have hle := (h b).length_le
  simp only [decide_eq_true_eq]
  omega

theorem filter_length_lt {p q : Nat → Bool} :
    ∀ (l : List Nat), l.Nodup → ∀ b ∈ l, (∀ a ∈ l, a ≠ b → q a = p a) →
    p b = true → q b = false → (l.filter q).length < (l.filter p).length := by
  intro l
  induction l with
  | nil => intro _ b hb; cases hb
  | cons x xs ih =>
    intro hnd b hb hagree hp hq
    have hx_not : x ∉ xs := (List.nodup_cons.1 hnd).1
    have hnd2 : xs.Nodup := (List.nodup_cons.1 hnd).2
    rw [List.filter_cons, List.filter_cons]
    rcases List.mem_cons.1 hb with rfl | hbxs
    · rw [if_pos hp, if_neg (by simp [hq])]
      have hsame : xs.filter q = xs.filter p :=
        List.filter_congr (fun a ha =>
          hagree a (List.mem_cons_of_mem _ ha) (fun e => hx_not (e ▸ ha)))
      rw [hsame]
      simp
    · have hxb : x ≠ b := fun e => hx_not (e ▸ hbxs)
      have hqp : q x = p x := hagree x (List.mem_cons_self _ _) hxb
      have hih := ih hnd2 b hbxs
        (fun a ha hne => hagree a (List.mem_cons_of_mem _ ha) hne) hp hq
      by_cases hpx : p x = true
      · rw [if_pos hpx, if_pos (by rw [hqp]; exact hpx)]
        simp only [List.length_cons]
        omega
      · rw [if_neg hpx, if_neg (by rw [hqp]; exact hpx)]
        exact hih

theorem countMulti_update_lt {g : Grid} {b : Nat} (hb : b < 81)
    (hlen : 1 < (g b).length) (n : Char) :
    countMulti (assign_value g b [n]) < countMulti g := by
  unfold countMulti
  apply filter_length_lt boxes boxes_nodup b (mem_boxes.2 hb)
  · intro a _ hne
    have hupd : assign_value g b [n] a = g a := Function.update_noteq hne _ _
    simp [hupd]
  · simpa using hlen
  · show decide (1 < (assign_value g b [n] b).length) = false
    have hupd : assign_value g b [n] b = [n] := Function.update_same _ _ _
    simp [hupd]

theorem searchAux_fuel_succ : ∀ (fuel : Nat) (g : Grid), countMulti g < fuel →
    searchAux (fuel + 1) g = searchAux fuel g := by
  intro fuel
  induction fuel with
  | zero => intro g h; omega
  | succ n ih =>
    intro g h
    cases hr : reduce_puzzle g with
    | none => rw [searchAux_none _ _ hr, searchAux_none _ _ hr]
    | some solved =>
      rw [searchAux_some _ _ _ hr, searchAux_some _ _ _ hr]
      by_cases hall : (boxes.all fun b => (solved b).length == 1) = true
      · rw [searchBody_all _ _ hall, searchBody_all _ _ hall]
      · cases hbc : branchChoice solved with
        | none => rw [searchBody_nochoice _ _ hall hbc, searchBody_nochoice _ _ hall hbc]
        | some p =>
          rcases p with ⟨box, bv⟩
          rw [searchBody_branch _ _ _ _ hall hbc, searchBody_branch _ _ _ _ hall hbc]
          apply tryNumbers_congr
          intro m _
          apply ih
          have hbox := branchChoice_some hbc
          have hle : countMulti solved ≤ countMulti g :=
            countMulti_mono (reduce_puzzle_gridLE hr)
          have hlt := countMulti_update_lt hbox.1 hbox.2.1 m
          omega

theorem searchAux_add : ∀ (k fuel : Nat) (g : Grid), countMulti g < fuel →
    searchAux (fuel + k) g = searchAux fuel g := by
  intro k
  induction k with
  | zero => intro fuel g _; rfl
  | succ m ih =>
    intro fuel g h
    have h1 : fuel + (m + 1) = (fuel + m) + 1 := by omega
    rw [h1, searchAux_fuel_succ (fuel + m) g (by omega)]
    exact ih fuel g h

theorem searchAux_eq_search {fuel : Nat} {g : Grid} (h : countMulti g < fuel) :
    searchAux fuel g = search g := by
  unfold search
  rcases Nat.le_total fuel 82 with hle | hge
  · have h82 : 82 = fuel + (82 - fuel) := by omega
    rw [h82, searchAux_add (82 - fuel) fuel g h]
  · have hf : fuel = 82 + (fuel - 82) := by omega
    rw [hf, searchAux_add (fuel - 82) 82 g (by have := countMulti_le_81 g; omega)]

/-! A satisfying placement survives every pass: no pass ever removes a
digit that belongs to a solution. -/

theorem sol_distinct {sol : Nat → Char} (hok : SolOK sol) {u : List Nat}
    (hu : u ∈ unitlist) {b1 b2 : Nat} (h1 : b1 ∈ u) (h2 : b2 ∈ u)
    (hne : b1 ≠ b2) : sol b1 ≠ sol b2 := by
  intro heq
  have hb1 : b1 < 81 := unit_mem_lt u hu b1 h1
  have hd : sol b1 ∈ cols := hok.1 b1 hb1
  have hcount := hok.2 u hu (sol b1) hd
  have hf1 : b1 ∈ u.filter (fun b => sol b == sol b1) :=
    List.mem_filter.2 ⟨h1, by simp⟩
  have hf2 : b2 ∈ u.filter (fun b => sol b == sol b1) :=
    List.mem_filter.2 ⟨h2, by simp [heq]⟩
  rcases List.length_eq_one.1 hcount with ⟨z, hz⟩
  rw [hz] at hf1 hf2
  rw [List.mem_singleton.1 hf1] at hne
  exact hne (List.mem_singleton.1 hf2).symm

theorem eliminate_compat {sol : Nat → Char} (hok : SolOK sol) {g : Grid}
    (hcompat : SolCompat sol g) : SolCompat sol (eliminate g) := by
  rw [eliminate_eq]
  refine (foldl_pres (fun w => SolCompat sol w ∧ GridLE w g) elimStep
    (boxes.filter (fun box => (g box).length == 1)) g
    ⟨hcompat, gridLE_refl g⟩ ?_).1
  intro w box hbox hw
  have hbox2 := List.mem_filter.1 hbox
  have hboxlt : box < 81 := mem_boxes.1 hbox2.1
  have hglen : (g box).length = 1 := by simpa using hbox2.2
  have hwlen : (w box).length ≤ 1 :=
    le_trans (hw.2 box).length_le (le_of_eq hglen)
  have hdigit : w box = [sol box] :=
    eq_singleton_of_len_le_one_of_mem hwlen (hw.1 box hboxlt)
  constructor
  · unfold elimStep
    rw [hdigit]
    refine foldl_pres (SolCompat sol) _ (peers box) w hw.1 ?_
    intro w2 p hp hw2
    intro b hb
    by_cases hbp : b = p
    · subst hbp
      show sol b ∈ Function.update w2 b (pyReplace [sol box] (w2 b)) b
      rw [Function.update_same, pyReplace_single]
      rw [List.mem_filter]
      refine ⟨hw2 b hb, ?_⟩
      rcases mem_peers.1 hp with ⟨hne, u, hu, hbu, hpu⟩
      have hsne : sol b ≠ sol box := sol_distinct hok hu hpu hbu hne
      simpa [bne_iff_ne] using hsne
    · show sol b ∈ Function.update w2 p (pyReplace [sol box] (w2 p)) b
      rw [Function.update_noteq hbp]
      exact hw2 b hb
  · exact gridLE_trans (elimStep_gridLE w box) hw.2

theorem ocDigitStep_compat {sol : Nat → Char} (hok : SolOK sol) {v : Grid}
    {unit : List Nat} (hu : unit ∈ unitlist) {number : Char} (hn : number ∈ cols)
    (hcompat : SolCompat sol v) : SolCompat sol (ocDigitStep unit v number) := by
  unfold ocDigitStep
  cases hfit : unit.filter (fun box => (v box).contains number) with
  | nil => exact hcompat
  | cons box rest =>
    cases rest with
    | cons y ys => exact hcompat
    | nil =>
      intro b hb
      rcases List.length_eq_one.1 (hok.2 unit hu number hn) with ⟨z, hz⟩
      have hzmem : z ∈ unit.filter (fun b2 => sol b2 == number) := by
        rw [hz]; exact List.mem_singleton_self z
      have hzu : z ∈ unit := (List.mem_filter.1 hzmem).1
      have hzsol : sol z = number := by
        have := (List.mem_filter.1 hzmem).2
        simpa using this
      have hzlt : z < 81 := unit_mem_lt unit hu z hzu
      have hzfit : z ∈ unit.filter (fun box => (v box).contains number) :=
        List.mem_filter.2 ⟨hzu, contains_true.2 (hzsol ▸ hcompat z hzlt)⟩
      rw [hfit] at hzfit
      have hzbox : z = box := List.mem_singleton.1 hzfit
      by_cases hbb : b = box
      · subst hbb
        show sol b ∈ Function.update v b [number] b
        rw [Function.update_same, List.mem_singleton, ← hzbox]
        exact hzsol
      · show sol b ∈ Function.update v box [number] b
        rw [Function.update_noteq hbb]
        exact hcompat b hb

theorem only_choice_compat {sol : Nat → Char} (hok : SolOK sol) {g : Grid}
    (hcompat : SolCompat sol g) : SolCompat sol (only_choice g) := by
  rw [only_choice_eq]
  refine foldl_pres (SolCompat sol) ocUnitStep unitlist g hcompat ?_
  intro w unit hu hw
  unfold ocUnitStep
  refine foldl_pres (SolCompat sol) (ocDigitStep unit) cols w hw ?_
  intro w2 number hn hw2
  exact ocDigitStep_compat hok hu hn hw2

theorem reduceAux_compat {sol : Nat → Char} (hok : SolOK sol) :
    ∀ (fuel : Nat) (g : Grid), 82 ≤ fuel + check_number_of_solved_values g 1 →
    SolCompat sol g →
    ∃ g2, reduceAux fuel g = some g2 ∧ SolCompat sol g2 := by
  intro fuel
  induction fuel with
  | zero =>
    intro g hf _
    have := check_le_81 g 1
    omega
  | succ n ih =>
    intro g hf hcompat
    rw [reduceAux_step]
    have hcompat1 : SolCompat sol (only_choice (eliminate g)) :=
      only_choice_compat hok (eliminate_compat hok hcompat)
    have hz : check_number_of_solved_values (only_choice (eliminate g)) 0 = 0 := by
      rw [check_zero_iff]
      intro b hb hbe
      have hmem := hcompat1 b hb
      rw [hbe] at hmem
      cases hmem
    rw [if_neg (fun hk => hk hz)]
    by_cases hstop : check_number_of_solved_values g 1 =
        check_number_of_solved_values (only_choice (eliminate g)) 1
    · rw [if_pos hstop]
      exact ⟨_, rfl, hcompat1⟩
    · rw [if_neg hstop]
      apply ih
      · have hmono := solved_count_mono hz
        have hlt := lt_of_le_of_ne hmono hstop
        omega
      · exact hcompat1

theorem reduce_puzzle_compat {sol : Nat → Char} (hok : SolOK sol) {g : Grid}
    (hcompat : SolCompat sol g) :
    ∃ g2, reduce_puzzle g = some g2 ∧ SolCompat sol g2 :=
  reduceAux_compat hok 82 g (Nat.le_add_right 82 _) hcompat

theorem searchAux_sound : ∀ (fuel : Nat) (g r : Grid), DigitsGrid g →
    searchAux fuel g = some r →
    (∀ b < 81, (r b).length = 1) ∧ DigitsGrid r ∧ NoDupPeers r := by
  intro fuel
  induction fuel with
  | zero =>
    intro g r _ h
    simp [searchAux] at h
  | succ n ih =>
    intro g r hdg h
    cases hr : reduce_puzzle g with
    | none => rw [searchAux_none _ _ hr] at h; cases h
    | some solved =>
      rw [searchAux_some _ _ _ hr] at h
      have hsLE := reduce_puzzle_gridLE hr
      have hsdg : DigitsGrid solved := fun b hb => (hsLE b).trans (hdg b hb)
      by_cases hall : (boxes.all fun b => (solved b).length == 1) = true
      · rw [searchBody_all _ _ hall] at h
        injection h with h2
        rw [← h2]
        exact ⟨all_solved_iff.1 hall, hsdg, reduce_puzzle_no_dup hr⟩
      · cases hbc : branchChoice solved with
        | none => rw [searchBody_nochoice _ _ hall hbc] at h; cases h
        | some p =>
          rcases p with ⟨box, bv⟩
          rw [searchBody_branch _ _ _ _ hall hbc] at h
          rcases tryNumbers_eq_some h with ⟨m, hm, hrec⟩
          have hbox := branchChoice_some hbc
          have hdg2 : DigitsGrid (assign_value solved box [m]) := by
            intro b hb
            by_cases hbb : b = box
            · subst hbb
              show (Function.update solved b [m] b).Sublist cols
              rw [Function.update_same]
              rw [hbox.2.2] at hm
              exact List.singleton_sublist.2 ((hsdg b hb).subset hm)
            · show (Function.update solved box [m] b).Sublist cols
              rw [Function.update_noteq hbb]
              exact hsdg b hb
          exact ih _ _ hdg2 hrec

theorem searchAux_complete {sol : Nat → Char} (hok : SolOK sol) :
    ∀ (fuel : Nat) (g : Grid), countMulti g < fuel → SolCompat sol g →
    ∃ r, searchAux fuel g = some r := by
  intro fuel
  induction fuel with
  | zero => intro g h _; omega
  | succ n ih =>
    intro g hf hcompat
    rcases reduce_puzzle_compat hok hcompat with ⟨sv, hr, hcompat2⟩
    rw [searchAux_some _ _ _ hr]
    by_cases hall : (boxes.all fun b => (sv b).length == 1) = true
    · rw [searchBody_all _ _ hall]
      exact ⟨sv, rfl⟩
    · have hex : ∃ b, b < 81 ∧ 1 < (sv b).length := by
        by_contra hno
        push_neg at hno
        apply hall
        rw [List.all_eq_true]
        intro b hbm
        have hblt := mem_boxes.1 hbm
        have hle : (sv b).length ≤ 1 := hno b hblt
        have hne : sv b ≠ [] := by
          intro he
          have hmem := hcompat2 b hblt
          rw [he] at hmem
          cases hmem
        have hnz : (sv b).length ≠ 0 := fun h0 => hne (List.length_eq_zero.1 h0)
        simp
        omega
      rcases hex with ⟨b, hblt, hbl⟩
      rcases branchChoice_isSome hblt hbl with ⟨box, bv, hbc⟩
      rw [searchBody_branch _ _ _ _ hall hbc]
      have hbox := branchChoice_some hbc
      have hmem : sol box ∈ bv := by
        rw [hbox.2.2]
        exact hcompat2 box hbox.1
      have hcompat3 : SolCompat sol (assign_value sv box [sol box]) := by
        intro b2 hb2
        by_cases hbb : b2 = box
        · subst hbb
          show sol b2 ∈ Function.update sv b2 [sol b2] b2
          rw [Function.update_same]
          exact List.mem_singleton_self _
        · show sol b2 ∈ Function.update sv box [sol box] b2
          rw [Function.update_noteq hbb]
          exact hcompat2 b2 hb2
      have hcm : countMulti (assign_value sv box [sol box]) < n := by
        have h1 := countMulti_update_lt hbox.1 hbox.2.1 (sol box)
        have h2 := countMulti_mono (reduce_puzzle_gridLE hr)
        omega
      rcases ih _ hcm hcompat3 with ⟨r, hrs⟩
      exact tryNumbers_some_of_mem hmem hrs

/-! From a fully resolved duplicate-free grid to the independently stated
validity predicate, and back to an abstract solution. -/

theorem units_once {r : Grid} (hall : ∀ b < 81, (r b).length = 1)
    (hdg : DigitsGrid r) (hnd : NoDupPeers r) :
    ∀ u ∈ unitlist, ∀ d ∈ cols, (u.filter (fun b => (r b).contains d)).length = 1 := by
  intro u hu d hd
  have hlen9 : u.length = 9 := unit_length u hu
  have hnodup_u : u.Nodup := unit_nodup u hu
  have hsub : ∀ b ∈ u, ∃ c, r b = [c] ∧ c ∈ cols := by
    intro b hb
    have hblt : b < 81 := unit_mem_lt u hu b hb
    rcases List.length_eq_one.1 (hall b hblt) with ⟨c, hc⟩
    refine ⟨c, hc, ?_⟩
    have hsubl := hdg b hblt
    rw [hc] at hsubl
    exact List.singleton_sublist.1 hsubl
  have hinj : ∀ x ∈ u, ∀ y ∈ u, r x = r y → x = y := by
    intro x hx y hy hxy
    by_contra hne
    rcases hsub x hx with ⟨c, hc, -⟩
    have hyx : y ∈ peers x := mem_peers_of_unit hu hx hy (fun e => hne e.symm)
    exact hnd x y c hyx hc (by rw [← hxy]; exact hc)
  have hnodup_l : (u.map r).Nodup := List.Nodup.map_on hinj hnodup_u
  have hsubset : (u.map r) ⊆ cols.map (fun c => [c]) := by
    intro x hx
    rcases List.mem_map.1 hx with ⟨b, hb, rfl⟩
    rcases hsub b hb with ⟨c, hc, hcc⟩
    rw [hc]
    exact List.mem_map.2 ⟨c, hcc, rfl⟩
  have hperm : (u.map r).Perm (cols.map (fun c => [c])) := by
    refine List.Subperm.perm_of_length_le (List.Nodup.subperm hnodup_l hsubset) ?_
    rw [List.length_map, List.length_map, hlen9]
    decide
  have hcount : (u.filter (fun b => (r b).contains d)).length
      = List.countP (fun x => x.contains d) (u.map r) := by
    rw [List.countP_map, ← List.countP_eq_length_filter]
    rfl
  rw [hcount, List.Perm.countP_eq _ hperm]
  simp only [cols, List.mem_cons, List.not_mem_nil, or_false] at hd
  rcases hd with rfl | rfl | rfl | rfl | rfl | rfl | rfl | rfl | rfl
  all_goals decide

theorem valid_solution_of {r : Grid} (hall : ∀ b < 81, (r b).length = 1)
    (hdg : DigitsGrid r) (hnd : NoDupPeers r) : validSolution r :=
  ⟨hall, units_once hall hdg hnd⟩

theorem validInput_digits {s : List Char} (hs : validInput s) :
    DigitsGrid (grid_values s) := by
  intro b _
  show (match s[b]? with
        | some ch => if ch = '.' then cols else [ch]
        | none => []).Sublist cols
  cases hg : s[b]? with
  | none => exact List.nil_sublist _
  | some ch =>
    show (if ch = '.' then cols else [ch]).Sublist cols
    by_cases hch : ch = '.'
    · rw [if_pos hch]
    · rw [if_neg hch]
      have hmem : ch ∈ s := List.getElem?_mem hg
      rcases hs.2 ch hmem with hc | hc
      · exact List.singleton_sublist.2 hc
      · exact absurd hc hch

theorem searchAux_gridLE : ∀ (fuel : Nat) (g r : Grid),
    searchAux fuel g = some r → GridLE r g := by
  intro fuel
  induction fuel with
  | zero => intro g r h; simp [searchAux] at h
  | succ n ih =>
    intro g r h
    cases hr : reduce_puzzle g with
    | none => rw [searchAux_none _ _ hr] at h; cases h
    | some solved =>
      rw [searchAux_some _ _ _ hr] at h
      by_cases hall : (boxes.all fun b => (solved b).length == 1) = true
      · rw [searchBody_all _ _ hall] at h
        injection h with h2
        rw [← h2]
        exact reduce_puzzle_gridLE hr
      · cases hbc : branchChoice solved with
        | none => rw [searchBody_nochoice _ _ hall hbc] at h; cases h
        | some p =>
          rcases p with ⟨box, bv⟩
          rw [searchBody_branch _ _ _ _ hall hbc] at h
          rcases tryNumbers_eq_some h with ⟨m, hm, hrec⟩
          have hbox := branchChoice_some hbc
          have hstep : GridLE (assign_value solved box [m]) solved := by
            apply gridLE_update
            rw [hbox.2.2] at hm
            exact List.singleton_sublist.2 hm
          exact gridLE_trans (gridLE_trans (ih _ _ hrec) hstep) (reduce_puzzle_gridLE hr)

theorem is_solution_of_valid {g g0 : Grid} (hall : ∀ b < 81, (g b).length = 1)
    (hdg : DigitsGrid g) (hnd : NoDupPeers g) (hLE : GridLE g g0) :
    IsSolution (fun b => (g b).headD '1') g0 := by
  have hsingle : ∀ b < 81, g b = [(g b).headD '1'] := by
    intro b hb
    rcases List.length_eq_one.1 (hall b hb) with ⟨c, hc⟩
    rw [hc]
    rfl
  refine ⟨?_, ?_, ?_⟩
  · intro b hb
    have hc := hsingle b hb
    have hsubl := hdg b hb
    rw [hc] at hsubl
    exact List.singleton_sublist.1 hsubl
  · intro u hu d hd
    have hsame : u.filter (fun b => (fun b => (g b).headD '1') b == d)
        = u.filter (fun b => (g b).contains d) := by
      apply List.filter_congr
      intro b hb
      have hblt : b < 81 := unit_mem_lt u hu b hb
      rcases List.length_eq_one.1 (hall b hblt) with ⟨c, hc⟩
      have hhead : (g b).headD '1' = c := by rw [hc]; rfl
      show ((g b).headD '1' == d) = (g b).contains d
      rw [hhead, hc]
      by_cases he : c = d
      · subst he; simp
      · have h2 : ¬ d = c := fun e => he e.symm
        simp [he, h2]
    rw [hsame]
    exact units_once hall hdg hnd u hu d hd
  · intro b hb
    have hc := hsingle b hb
    have hmem : (g b).headD '1' ∈ g b := by
      rw [hc]
      exact List.mem_singleton_self _
    exact (hLE b).subset hmem

/-! Characterization of one naked-twins unit step. -/

theorem ntNumStep_eval {unit : List Nat} (hnd : unit.Nodup) (pair : Vals) (v : Grid)
    (num : Char) (b : Nat) :
    (ntNumStep unit pair v num) b =
      if b ∈ unit ∧ 1 < (v b).length ∧ v b ≠ pair then
        (v b).filter (fun x => x != num)
      else v b := by
  have key := foldl_cond_update_nodup (fun x => pyReplace [num] x)
    (fun x => decide (1 < x.length) && !(x == pair)) unit hnd v b
  rw [pyReplace_single] at key
  unfold ntNumStep
  refine key.trans ?_
  refine if_congr ?_ rfl rfl
  constructor
  · rintro ⟨hbu, hcond⟩
    simp only [Bool.and_eq_true, decide_eq_true_eq, Bool.not_eq_true',
      beq_eq_false_iff_ne] at hcond
    exact ⟨hbu, hcond.1, hcond.2⟩
  · rintro ⟨hbu, h1, h2⟩
    refine ⟨hbu, ?_⟩
    simp only [Bool.and_eq_true, decide_eq_true_eq, Bool.not_eq_true',
      beq_eq_false_iff_ne]
    exact ⟨h1, h2⟩

theorem ntUnitStep_none {v : Grid} {u : List Nat}
    (h : findNakedPair (u.map v) = none) : ntUnitStep v u = v := by
  rw [ntUnitStep_eq, h]

theorem ntUnitStep_char {v : Grid} {u : List Nat} (hu : u ∈ unitlist)
    (hsorted : ∀ b ∈ u, (v b).Sublist cols) {pair : Vals}
    (hfind : findNakedPair (u.map v) = some pair) :
    (∀ b, b ∉ u → ntUnitStep v u b = v b) ∧
    (∀ b ∈ u, ((v b).length ≤ 1 ∨ v b = pair) → ntUnitStep v u b = v b) ∧
    (∀ b ∈ u, 1 < (v b).length → v b ≠ pair →
      ntUnitStep v u b = (v b).filter (fun c => !(pair.contains c))) := by
  have hnd : u.Nodup := unit_nodup u hu
  have hfp := List.find?_some hfind
  have hplen : pair.length = 2 := by
    simp only [Bool.and_eq_true, beq_iff_eq] at hfp
    exact hfp.2
  have hpmem : pair ∈ u.map v := List.mem_of_find?_eq_some hfind
  rcases List.mem_map.1 hpmem with ⟨b0, hb0, hb0v⟩
  have hpsub : pair.Sublist cols := by rw [← hb0v]; exact hsorted b0 hb0
  obtain ⟨c1, c2, rfl⟩ := List.length_eq_two.1 hplen
  have horder : c1 < c2 := by
    have hpw := List.Pairwise.sublist hpsub cols_pairwise_lt
    rcases List.pairwise_cons.1 hpw with ⟨hfst, -⟩
    exact hfst c2 (List.mem_singleton_self c2)
  have hstep : ntUnitStep v u = ntNumStep u [c1, c2] (ntNumStep u [c1, c2] v c1) c2 := by
    rw [ntUnitStep_eq, hfind]
    rfl
  have hw1 : ∀ b, (ntNumStep u [c1, c2] v c1) b =
      if b ∈ u ∧ 1 < (v b).length ∧ v b ≠ [c1, c2] then
        (v b).filter (fun x => x != c1)
      else v b := fun b => ntNumStep_eval hnd _ v c1 b
  have hfin : ∀ b, ntUnitStep v u b =
      if b ∈ u ∧ 1 < ((ntNumStep u [c1, c2] v c1) b).length ∧
          (ntNumStep u [c1, c2] v c1) b ≠ [c1, c2] then
        ((ntNumStep u [c1, c2] v c1) b).filter (fun x => x != c2)
      else (ntNumStep u [c1, c2] v c1) b := by
    intro b
    rw [hstep]
    exact ntNumStep_eval hnd _ _ c2 b
  refine ⟨?_, ?_, ?_⟩
  · intro b hbu
    rw [hfin b, if_neg (fun h => hbu h.1), hw1 b, if_neg (fun h => hbu h.1)]
  · intro b hbu hshort
    have hw1b : (ntNumStep u [c1, c2] v c1) b = v b := by
      rw [hw1 b, if_neg]
      rintro ⟨-, hlen, hne⟩
      rcases hshort with h1 | h2
      · omega
      · exact hne h2
    rw [hfin b, hw1b, if_neg]
    rintro ⟨-, hlen, hne⟩
    rcases hshort with h1 | h2
    · omega
    · exact hne h2
  · intro b hbu hlen hne
    have hw1b : (ntNumStep u [c1, c2] v c1) b = (v b).filter (fun x => x != c1) := by
      rw [hw1 b, if_pos ⟨hbu, hlen, hne⟩]
    have hkey : ntUnitStep v u b =
        ((ntNumStep u [c1, c2] v c1) b).filter (fun x => x != c2) := by
      rw [hfin b]
      by_cases hcond : b ∈ u ∧ 1 < ((ntNumStep u [c1, c2] v c1) b).length ∧
          (ntNumStep u [c1, c2] v c1) b ≠ [c1, c2]
      · rw [if_pos hcond]
      · rw [if_neg hcond]
        have hc2not : c2 ∉ (ntNumStep u [c1, c2] v c1) b := by
          intro hc2
          have h2 : ¬(1 < ((ntNumStep u [c1, c2] v c1) b).length ∧
              (ntNumStep u [c1, c2] v c1) b ≠ [c1, c2]) :=
            fun hh => hcond ⟨hbu, hh⟩
          by_cases hp : (ntNumStep u [c1, c2] v c1) b = [c1, c2]
          · have hc1not : c1 ∉ (ntNumStep u [c1, c2] v c1) b := by
              rw [hw1b]
              intro hm
              have hmf := (List.mem_filter.1 hm).2
              simp at hmf
            rw [hp] at hc1not
            exact hc1not (List.mem_cons_self _ _)
          · have hlen1 : ((ntNumStep u [c1, c2] v c1) b).length ≤ 1 := by
              rcases Nat.lt_or_ge 1 ((ntNumStep u [c1, c2] v c1) b).length with hgt | hle
              · exact absurd ⟨hgt, hp⟩ h2
              · omega
            have hw1c2 : (ntNumStep u [c1, c2] v c1) b = [c2] :=
              eq_singleton_of_len_le_one_of_mem hlen1 hc2
            have hvmem : ∀ x ∈ v b, x = c1 ∨ x = c2 := by
              intro x hx
              by_cases hx1 : x = c1
              · exact Or.inl hx1
              · right
                have hxw : x ∈ (ntNumStep u [c1, c2] v c1) b := by
                  rw [hw1b]
                  refine List.mem_filter.2 ⟨hx, ?_⟩
                  simp only [bne_iff_ne, Ne, decide_eq_true_eq]
                  exact hx1
                rw [hw1c2] at hxw
                exact List.mem_singleton.1 hxw
            have hvsub : v b ⊆ [c1, c2] := by
              intro x hx
              rcases hvmem x hx with rfl | rfl
              · exact List.mem_cons_self _ _
              · exact List.mem_cons_of_mem _ (List.mem_singleton_self _)
            have hvnd : (v b).Nodup := (hsorted b hbu).nodup cols_nodup
            have hvle : (v b).length ≤ 2 := by
              have hs := (List.Nodup.subperm hvnd hvsub).length_le
              simpa using hs
            have hvlen2 : (v b).length = 2 := by omega
            obtain ⟨x, y, hxy⟩ := List.length_eq_two.1 hvlen2
            have hxylt : x < y := by
              have hp2 := List.Pairwise.sublist (hsorted b hbu) cols_pairwise_lt
              rw [hxy] at hp2
              rcases List.pairwise_cons.1 hp2 with ⟨hfst, -⟩
              exact hfst y (List.mem_singleton_self y)
            have hxmem : x ∈ v b := by rw [hxy]; exact List.mem_cons_self _ _
            have hymem : y ∈ v b := by
              rw [hxy]
              exact List.mem_cons_of_mem _ (List.mem_singleton_self _)
            rcases hvmem x hxmem with rfl | rfl
            · rcases hvmem y hymem with rfl | rfl
              · exact lt_irrefl _ hxylt
              · exact hne (by rw [hxy])
            · rcases hvmem y hymem with rfl | rfl
              · exact absurd horder (lt_asymm hxylt)
              · exact lt_irrefl _ hxylt
        symm
        refine List.filter_eq_self.2 ?_
        intro a ha
        simp only [bne_iff_ne, Ne, decide_eq_true_eq]
        exact fun e => hc2not (e ▸ ha)
    rw [hkey, hw1b, List.filter_filter]
    apply List.filter_congr
    intro a _
    show ((a != c2) && (a != c1)) = !(List.contains [c1, c2] a)
    by_cases h1 : a = c1 <;> by_cases h2 : a = c2 <;> simp [h1, h2]

/-! Auxiliary: unfolding equations for solve and search, and: any grid
returned by search is fully resolved. -/

theorem solve_eq_search (s : List Char) : solve s = search (grid_values s) := rfl

theorem search_eq_searchAux (g : Grid) : search g = searchAux 82 g := rfl

set_option maxRecDepth 40000

theorem searchAux_all_solved : ∀ (fuel : Nat) (g r : Grid),
    searchAux fuel g = some r → ∀ b < 81, (r b).length = 1 := by
  intro fuel
  induction fuel with
  | zero => intro g r h; simp [searchAux] at h
  | succ n ih =>
    intro g r h
    cases hr : reduce_puzzle g with
    | none => rw [searchAux_none _ _ hr] at h; cases h
    | some solved =>
      rw [searchAux_some _ _ _ hr] at h
      by_cases hall : (boxes.all fun b => (solved b).length == 1) = true
      · rw [searchBody_all _ _ hall] at h
        injection h with h2
        rw [← h2]
        exact all_solved_iff.1 hall
      · cases hbc : branchChoice solved with
        | none => rw [searchBody_nochoice _ _ hall hbc] at h; cases h
        | some p =>
          rcases p with ⟨box, bv⟩
          rw [searchBody_branch _ _ _ _ hall hbc] at h
          rcases tryNumbers_eq_some h with ⟨m, hm, hrec⟩
          exact ih _ _ hrec

/-! The claims. -/

/-- Claim C1: for every syntactically valid 81-character puzzle string,
solve returns a grid in which every cell is a singleton and every row,
column, 3x3 box and both main diagonals contain each digit 1-9 exactly
once whenever such a solution exists (the validSolution predicate is the
independent from-scratch re-verification), and returns the distinguished
failure value exactly when no solution compatible with the input
exists. -/
theorem C1_solve_contract : ∀ s : List Char, validInput s →
    (∀ g, solve s = some g → validSolution g) ∧
    ((∃ sol, IsSolution sol (grid_values s)) ↔ ∃ g, solve s = some g) := by
  intro s hs
  have hdg : DigitsGrid (grid_values s) := validInput_digits hs
  constructor
  · intro g hg
    rw [solve_eq_search, search_eq_searchAux] at hg
    have hres := searchAux_sound 82 _ g hdg hg
    exact valid_solution_of hres.1 hres.2.1 hres.2.2
  · constructor
    · rintro ⟨sol, hsol⟩
      rcases searchAux_complete ⟨hsol.1, hsol.2.1⟩ 82 (grid_values s)
        (by have := countMulti_le_81 (grid_values s); omega) hsol.2.2 with ⟨r, hr⟩
      refine ⟨r, ?_⟩
      rw [solve_eq_search, search_eq_searchAux]
      exact hr
    · rintro ⟨g, hg⟩
      rw [solve_eq_search, search_eq_searchAux] at hg
      have hres := searchAux_sound 82 _ g hdg hg
      exact ⟨fun b => (g b).headD '1',
        is_solution_of_valid hres.1 hres.2.1 hres.2.2 (searchAux_gridLE 82 _ g hg)⟩

/-- Witness for C1 at the concrete diagonal-sudoku input string of the
repository. -/
theorem C1_solve_contract_witness :
    validInput diag_sudoku_grid ∧
    ((∀ g, solve diag_sudoku_grid = some g → validSolution g) ∧
     ((∃ sol, IsSolution sol (grid_values diag_sudoku_grid)) ↔
       ∃ g, solve diag_sudoku_grid = some g)) :=
  have hv : validInput diag_sudoku_grid := ⟨by decide, by decide⟩
  ⟨hv, C1_solve_contract diag_sudoku_grid hv⟩

/-- Claim C2: a grid whose reduction reaches an empty candidate set -
in particular one whose input places the same digit in two peer cells -
makes reduce_puzzle and search return the failure value, and neither
ever returns a grid containing an empty candidate set. -/
theorem C2_contradictions_fail :
    (∀ g g2 : Grid, reduce_puzzle g = some g2 → ∀ b < 81, g2 b ≠ []) ∧
    (∀ g g2 : Grid, search g = some g2 → ∀ b < 81, g2 b ≠ []) ∧
    (∀ (g : Grid) (b : Nat), b < 81 → g b = [] →
      reduce_puzzle g = none ∧ search g = none) ∧
    (∀ (g : Grid) (b1 b2 : Nat) (d : Char), b2 ∈ peers b1 → g b1 = [d] →
      g b2 = [d] → reduce_puzzle g = none ∧ search g = none) := by
  refine ⟨?_, ?_, ?_, ?_⟩
  · intro g g2 h
    exact reduce_puzzle_no_empty h
  · intro g g2 h b hb he
    have hall := searchAux_all_solved 82 g g2 h b hb
    rw [he] at hall
    exact absurd hall (by decide)
  · intro g b hb he
    have h1 : reduce_puzzle g = none := reduce_puzzle_empty_none hb he
    exact ⟨h1, searchAux_none 81 g h1⟩
  · intro g b1 b2 d hp h1 h2
    have hr := reduce_puzzle_dup_none hp h1 h2
    exact ⟨hr, searchAux_none 81 g hr⟩

/-- Witness for C2 at a concrete input that places the digit 5 in the
two peer cells A1 and A2. -/
theorem C2_contradictions_fail_witness :
    grid_values dup_input 0 = ['5'] ∧ grid_values dup_input 1 = ['5'] ∧
    (1 : Nat) ∈ peers 0 ∧
    reduce_puzzle (grid_values dup_input) = none ∧
    search (grid_values dup_input) = none := by
  have h0 : grid_values dup_input 0 = ['5'] := by decide
  have h1 : grid_values dup_input 1 = ['5'] := by decide
  have hp : (1 : Nat) ∈ peers 0 := by decide
  have hc := C2_contradictions_fail.2.2.2 (grid_values dup_input) 0 1 '5' hp h0 h1
  exact ⟨h0, h1, hp, hc.1, hc.2⟩

/-- Claim C3, evaluated at a failing input: cg3 is a stalled grid
(reduce_puzzle returns it unchanged), its cell A2 is unresolved with two
candidates, yet search branches via branchChoice on cell A1, which has
three candidates: the minimum (box, box_value) tuple of source line 185
orders by cell name first and never compares candidate counts,
contradicting the fewest-candidates selection the claim and the comment
on source line 184 describe. -/
theorem C3_branch_not_fewest :
    reduce_puzzle cg3 = some cg3 ∧
    branchChoice cg3 = some (0, ['1', '2', '3']) ∧
    (cg3 0).length = 3 ∧ (cg3 1).length = 2 :=
  ⟨rfl, by decide, by decide, by decide⟩

/-- Counterexample to claim C4: in row A of cg4 both two-digit values 12
and 34 occur exactly twice (two distinct naked pairs), cell A5 is open
and not a twin, yet after naked_twins it still contains both 3 and 4:
the source only processes naked_pair[0], the first pair of the unit. -/
theorem C4_naked_twins_cex :
    [0, 1, 2, 3, 4, 5, 6, 7, 8] ∈ unitlist ∧
    ([0, 1, 2, 3, 4, 5, 6, 7, 8].map cg4).count ['3', '4'] = 2 ∧
    ([0, 1, 2, 3, 4, 5, 6, 7, 8].map cg4).count ['1', '2'] = 2 ∧
    (4 : Nat) ∈ [0, 1, 2, 3, 4, 5, 6, 7, 8] ∧
    1 < (cg4 4).length ∧ cg4 4 ≠ ['3', '4'] ∧
    '3' ∈ (naked_twins cg4) 4 ∧ '4' ∈ (naked_twins cg4) 4 := by
  decide

/-- Claim C4 as amended: naked_twins folds ntUnitStep over the units;
one unit step acts only through the first naked pair of the unit (the
first value, in order of occurrence, of length 2 occurring exactly
twice): it removes that pair's two digits from every cell of the unit
with more than one candidate and a value different from the pair, and
leaves every other cell - twins, singletons, cells outside the unit,
and in particular any further naked pair of the same unit - unchanged.
The hypothesis that the unit's values are subsequences of the digit
string is the candidate-string representation invariant. -/
theorem C4_naked_twins_amended :
    (∀ g : Grid, naked_twins g = unitlist.foldl ntUnitStep g) ∧
    (∀ (v : Grid) (u : List Nat), u ∈ unitlist →
      (∀ b ∈ u, (v b).Sublist cols) →
      (findNakedPair (u.map v) = none → ntUnitStep v u = v) ∧
      (∀ pair, findNakedPair (u.map v) = some pair →
        (∀ b, b ∉ u → ntUnitStep v u b = v b) ∧
        (∀ b ∈ u, ((v b).length ≤ 1 ∨ v b = pair) → ntUnitStep v u b = v b) ∧
        (∀ b ∈ u, 1 < (v b).length → v b ≠ pair →
          ntUnitStep v u b = (v b).filter (fun c => !(pair.contains c))))) := by
  refine ⟨fun g => rfl, ?_⟩
  intro v u hu hsorted
  exact ⟨fun h => ntUnitStep_none h, fun pair hf => ntUnitStep_char hu hsorted hf⟩

/-- Witness for the amended C4 at the concrete grid cg4 and row A: the
first pair 12 is eliminated from the open cell A5 while the twin cell A1
is untouched. -/
theorem C4_naked_twins_amended_witness :
    ([0, 1, 2, 3, 4, 5, 6, 7, 8] ∈ unitlist) ∧
    (∀ b ∈ ([0, 1, 2, 3, 4, 5, 6, 7, 8] : List Nat), (cg4 b).Sublist cols) ∧
    findNakedPair (([0, 1, 2, 3, 4, 5, 6, 7, 8] : List Nat).map cg4) = some ['1', '2'] ∧
    ntUnitStep cg4 [0, 1, 2, 3, 4, 5, 6, 7, 8] 4 =
      (cg4 4).filter (fun c => !(List.contains ['1', '2'] c)) ∧
    ntUnitStep cg4 [0, 1, 2, 3, 4, 5, 6, 7, 8] 0 = cg4 0 := by
  have h1 : [0, 1, 2, 3, 4, 5, 6, 7, 8] ∈ unitlist := by decide
  have h2 : ∀ b ∈ ([0, 1, 2, 3, 4, 5, 6, 7, 8] : List Nat), (cg4 b).Sublist cols := by
    decide
  have h3 : findNakedPair (([0, 1, 2, 3, 4, 5, 6, 7, 8] : List Nat).map cg4) =
      some ['1', '2'] := by decide
  refine ⟨h1, h2, h3, ?_, ?_⟩
  · exact ((C4_naked_twins_amended.2 cg4 _ h1 h2).2 ['1', '2'] h3).2.2 4
      (by decide) (by decide) (by decide)
  · exact ((C4_naked_twins_amended.2 cg4 _ h1 h2).2 ['1', '2'] h3).2.1 0
      (by decide) (Or.inr (by decide))

/-- Counterexample to claim C5: cg5 is returned unchanged by
reduce_puzzle (the loop stalls), yet naked_twins still changes it - it
removes the naked-pair digit 1 from cell A3 - so reduce_puzzle does not
apply the naked-twins pass and its result is not a fixed point of all
three passes. -/
theorem C5_reduce_cex :
    reduce_puzzle cg5 = some cg5 ∧ '1' ∈ cg5 2 ∧ '1' ∉ (naked_twins cg5) 2 :=
  ⟨rfl, by decide, by decide⟩

/-- Claim C5 as amended: each iteration of reduce_puzzle applies exactly
eliminate followed by only_choice (naked_twins is not invoked), and the
loop returns the current grid as soon as an iteration leaves the count
of solved cells unchanged, having checked that no cell is empty: every
successful result is the eliminate/only_choice image of a grid with the
same solved count. -/
theorem C5_reduce_structure : ∀ g g2 : Grid, reduce_puzzle g = some g2 →
    ∃ g0, GridLE g0 g ∧ g2 = only_choice (eliminate g0) ∧
      check_number_of_solved_values g0 1 = check_number_of_solved_values g2 1 ∧
      check_number_of_solved_values g2 0 = 0 := by
  intro g g2 h
  rcases reduce_puzzle_some_shape h with ⟨⟨g0, hle, hsh, hc⟩, hz, -⟩
  exact ⟨g0, hle, hsh, hc, hz⟩

/-- Witness for the amended C5 at the stalled grid cg5. -/
theorem C5_reduce_structure_witness :
    reduce_puzzle cg5 = some cg5 ∧
    ∃ g0, GridLE g0 cg5 ∧ cg5 = only_choice (eliminate g0) ∧
      check_number_of_solved_values g0 1 = check_number_of_solved_values cg5 1 ∧
      check_number_of_solved_values cg5 0 = 0 :=
  ⟨rfl, C5_reduce_structure cg5 cg5 rfl⟩

/-- Claim C6: every pass only shrinks candidate sets: for every grid and
every cell, the cell's candidates after eliminate, only_choice or
naked_twins are a subset of its candidates before. -/
theorem C6_passes_shrink : ∀ (g : Grid) (b : Nat),
    (eliminate g) b ⊆ g b ∧ (only_choice g) b ⊆ g b ∧ (naked_twins g) b ⊆ g b :=
  fun g b => ⟨(eliminate_gridLE g b).subset, (only_choice_gridLE g b).subset,
    (naked_twins_gridLE g b).subset⟩

/-- Claim C7: every trial assignment of search runs on an independent
copy: after any prefix of failed digits, the branch for the next digit
receives exactly assign_value g box [n], built from the caller's grid g
alone, so sibling branches never observe each other's tentative
assignments and a failed branch leaves the caller's grid untouched. -/
theorem C7_branch_independence :
    ∀ (rec : Grid → Option Grid) (g : Grid) (box : Nat) (ns1 : List Char)
      (n : Char) (ns2 : List Char),
    (∀ m ∈ ns1, rec (assign_value g box [m]) = none) →
    tryNumbers rec g box (ns1 ++ n :: ns2) =
      match rec (assign_value g box [n]) with
      | some attempt => some attempt
      | none => tryNumbers rec g box ns2 :=
  fun _ _ _ ns1 n ns2 h => tryNumbers_append_skip ns1 n ns2 h

/-- Witness for C7 with a continuation that fails on every branch. -/
theorem C7_branch_independence_witness :
    (∀ m ∈ (['1'] : List Char),
      (fun _ : Grid => (none : Option Grid)) (assign_value cg5 0 [m]) = none) ∧
    tryNumbers (fun _ : Grid => (none : Option Grid)) cg5 0 (['1'] ++ '2' :: []) =
      none := by
  have hf : ∀ m ∈ (['1'] : List Char),
      (fun _ : Grid => (none : Option Grid)) (assign_value cg5 0 [m]) = none :=
    fun _ _ => rfl
  refine ⟨hf, ?_⟩
  rw [C7_branch_independence (fun _ => none) cg5 0 ['1'] '2' [] hf]
  rfl

/-- Claim C8: the reduction loop strictly increases the solved count on
every non-final iteration, so an iteration budget of 82 is exact
(any larger budget computes the same reduce_puzzle result); every
recursive search call strictly decreases the number of unsolved boxes,
which is at most 81, so a recursion budget above the unsolved count
computes the same search result. -/
theorem C8_termination_bounds :
    (∀ (g : Grid) (fuel : Nat), 82 ≤ fuel → reduceAux fuel g = reduce_puzzle g) ∧
    (∀ g : Grid,
      check_number_of_solved_values (only_choice (eliminate g)) 0 = 0 →
      check_number_of_solved_values g 1 ≠
        check_number_of_solved_values (only_choice (eliminate g)) 1 →
      check_number_of_solved_values g 1 <
        check_number_of_solved_values (only_choice (eliminate g)) 1) ∧
    (∀ (g sv : Grid) (box : Nat) (bv : Vals) (n : Char),
      reduce_puzzle g = some sv → branchChoice sv = some (box, bv) →
      countMulti (assign_value sv box [n]) < countMulti g ∧ countMulti g ≤ 81) ∧
    (∀ (g : Grid) (fuel : Nat), countMulti g < fuel →
      searchAux fuel g = search g) := by
  refine ⟨?_, ?_, ?_, ?_⟩
  · intro g fuel hf
    exact reduceAux_eq_of_ge fuel hf g
  · intro g hz hne
    exact lt_of_le_of_ne (solved_count_mono hz) hne
  · intro g sv box bv n hr hbc
    have hbox := branchChoice_some hbc
    have h1 := countMulti_update_lt hbox.1 hbox.2.1 n
    have h2 := countMulti_mono (reduce_puzzle_gridLE hr)
    exact ⟨by omega, countMulti_le_81 g⟩
  · intro g fuel hf
    exact searchAux_eq_search hf

/-- Witness for C8 at concrete budgets and grids. -/
theorem C8_termination_bounds_witness :
    ((82 : Nat) ≤ 100 ∧ reduceAux 100 cg5 = reduce_puzzle cg5) ∧
    (countMulti cg3 < 90 ∧ searchAux 90 cg3 = search cg3) :=
  ⟨⟨by decide, C8_termination_bounds.1 cg5 100 (by decide)⟩,
   ⟨by decide, C8_termination_bounds.2.2.2 cg3 90 (by decide)⟩⟩

/-- Claim C9: when search branches, the chosen box's candidate string is
exactly the string stored in the reduced grid and its characters are in
strictly increasing digit order (candidate strings are subsequences of
cols), the branch step of searchAux is tryNumbers on that string, and
the first digit whose recursive branch succeeds determines the result,
with no further digits tried. -/
theorem C9_digit_order :
    (∀ (g sv : Grid) (box : Nat) (bv : Vals) (fuel : Nat), DigitsGrid g →
      reduce_puzzle g = some sv →
      ¬ (boxes.all fun b => (sv b).length == 1) = true →
      branchChoice sv = some (box, bv) →
      searchAux (fuel + 1) g = tryNumbers (searchAux fuel) sv box bv ∧
      bv = sv box ∧ bv.Pairwise (fun a c => a < c)) ∧
    (∀ (rec : Grid → Option Grid) (g : Grid) (box : Nat) (ns1 : List Char)
       (n : Char) (ns2 : List Char) (r : Grid),
      (∀ m ∈ ns1, rec (assign_value g box [m]) = none) →
      rec (assign_value g box [n]) = some r →
      tryNumbers rec g box (ns1 ++ n :: ns2) = some r) := by
  constructor
  · intro g sv box bv fuel hdg hr hall hbc
    have hbox := branchChoice_some hbc
    refine ⟨?_, hbox.2.2, ?_⟩
    · rw [searchAux_some _ _ _ hr, searchBody_branch _ _ _ _ hall hbc]
    · have hsub : bv.Sublist cols := by
        rw [hbox.2.2]
        exact ((reduce_puzzle_gridLE hr) box).trans (hdg box hbox.1)
      exact List.Pairwise.sublist hsub cols_pairwise_lt
  · intro rec g box ns1 n ns2 r hfail hsucc
    rw [tryNumbers_append_skip ns1 n ns2 hfail, hsucc]

/-- Witness for C9 at the stalled grid cg3 and at a concrete
first-success branch. -/
theorem C9_digit_order_witness :
    DigitsGrid cg3 ∧ reduce_puzzle cg3 = some cg3 ∧
    ¬ (boxes.all fun b => (cg3 b).length == 1) = true ∧
    branchChoice cg3 = some (0, ['1', '2', '3']) ∧
    (searchAux 82 cg3 = tryNumbers (searchAux 81) cg3 0 ['1', '2', '3'] ∧
      ['1', '2', '3'] = cg3 0 ∧
      (['1', '2', '3'] : Vals).Pairwise (fun a c => a < c)) ∧
    tryNumbers (fun _ : Grid => some cg5) cg5 0 ([] ++ '1' :: []) = some cg5 := by
  have hdg : DigitsGrid cg3 := by unfold DigitsGrid; decide
  have hr : reduce_puzzle cg3 = some cg3 := rfl
  have hall : ¬ (boxes.all fun b => (cg3 b).length == 1) = true := by decide
  have hbc : branchChoice cg3 = some (0, ['1', '2', '3']) := by decide
  refine ⟨hdg, hr, hall, hbc, ?_, ?_⟩
  · exact C9_digit_order.1 cg3 cg3 0 ['1', '2', '3'] 81 hdg hr hall hbc
  · exact C9_digit_order.2 (fun _ => some cg5) cg5 0 [] '1' [] cg5
      (fun m hm => absurd hm (List.not_mem_nil m)) rfl

/-- Claim C10: an empty candidate set stays empty under eliminate and
only_choice, so the end-of-iteration emptiness check of reduce_puzzle
catches every contradiction produced earlier in the same iteration: if
eliminate empties a cell, that iteration of reduce_puzzle reports
failure. -/
theorem C10_empty_persists :
    (∀ (g : Grid) (b : Nat), g b = [] →
      (eliminate g) b = [] ∧ (only_choice g) b = []) ∧
    (∀ (g : Grid) (b : Nat), b < 81 → (eliminate g) b = [] →
      reduce_puzzle g = none) := by
  constructor
  · intro g b he
    have h1 : (eliminate g) b = [] := by
      have hs := eliminate_gridLE g b
      rw [he] at hs
      exact List.sublist_nil.1 hs
    have h2 : (only_choice g) b = [] := by
      rw [only_choice_short (by rw [he]; exact Nat.zero_le 1), he]
    exact ⟨h1, h2⟩
  · intro g b hb he
    have h1 : (only_choice (eliminate g)) b = [] := by
      rw [only_choice_short (by rw [he]; exact Nat.zero_le 1), he]
    have hnz : check_number_of_solved_values (only_choice (eliminate g)) 0 ≠ 0 := by
      intro hz
      exact (check_zero_iff.1 hz) b hb h1
    unfold reduce_puzzle
    rw [show (82 : Nat) = 81 + 1 from rfl, reduceAux_step 81, if_pos hnz]

/-- Witness for C10 at a concrete grid with an empty cell. -/
theorem C10_empty_persists_witness :
    cg10 0 = [] ∧ ((eliminate cg10) 0 = [] ∧ (only_choice cg10) 0 = []) ∧
    reduce_puzzle cg10 = none := by
  have h0 : cg10 0 = [] := rfl
  have h1 := C10_empty_persists.1 cg10 0 h0
  exact ⟨h0, h1, C10_empty_persists.2 cg10 0 (by decide) h1.1⟩
